import Mathlib

/-!
Verification of the SCORM translator ("traductor-scorm-manual") against its
natural-language specification.  Python strings are embedded as `List Char`,
bytes as `List Nat`, files and archives as explicit lists.  Library calls of
the source (`unicodedata.normalize`, `zipfile`, `json`, `base64`, UTF-8
codecs, BeautifulSoup text access) are given executable models whose scope is
stated at each definition.
-/

set_option maxHeartbeats 1000000

/-- Python strings, embedded as lists of unicode scalar values. -/
abbrev Str := List Char

/-- Model of Python `str.replace(old, new)` (replace all non-overlapping
occurrences, scanning left to right).  The skip counter keeps the recursion
structural: after a match, `old.length - 1` further characters of the input
are consumed without scanning. -/
def pyReplaceAux (old new : Str) : Nat → Str → Str
  | k + 1, _ :: rest => pyReplaceAux old new k rest
  | _ + 1, [] => []
  | 0, [] => []
  | 0, c :: rest =>
    if old.isPrefixOf (c :: rest) then
      new ++ pyReplaceAux old new (old.length - 1) rest
    else
      c :: pyReplaceAux old new 0 rest

/-- Python `s.replace(old, new)`; for empty `old` the sources never call it,
and the model returns `s` unchanged. -/
def pyReplace (old new s : Str) : Str :=
  if old = [] then s else pyReplaceAux old new 0 s

/-- Model of Python `s.replace(old, new, 1)`: replace only the first
occurrence. -/
def pyReplaceOnceAux (old new : Str) : Str → Str
  | [] => []
  | c :: rest =>
    if old.isPrefixOf (c :: rest) then new ++ (c :: rest).drop old.length
    else c :: pyReplaceOnceAux old new rest

/-- Python `s.replace(old, new, 1)`. -/
def pyReplaceOnce (old new s : Str) : Str :=
  if old = [] then s else pyReplaceOnceAux old new s

/-- Python `pat in s` (substring containment). -/
def containsSub (pat : Str) : Str → Bool
  | [] => pat.isEmpty
  | c :: rest => pat.isPrefixOf (c :: rest) || containsSub pat rest

/-- The whitespace characters stripped by Python `str.strip()` (ASCII part;
the sources only meet ASCII whitespace). -/
def pyIsSpace (c : Char) : Bool :=
  c = ' ' || c = '\t' || c = '\n' || c = '\r' || c = '\x0b' || c = '\x0c'

/-- Python `str.strip()`. -/
def pyStrip (s : Str) : Str :=
  ((s.dropWhile pyIsSpace).reverse.dropWhile pyIsSpace).reverse

/-- Python `str.lower()` (ASCII case folding; the compared key sets are
ASCII). -/
def lowerStr (s : Str) : Str := s.map Char.toLower

/-- Decimal digit to character, as in Python `str(int)`. -/
def decDigit : Nat → Char
  | 0 => '0' | 1 => '1' | 2 => '2' | 3 => '3' | 4 => '4'
  | 5 => '5' | 6 => '6' | 7 => '7' | 8 => '8' | _ => '9'

/-- Decimal rendering of a natural number, fuel-structured so that it reduces
in the kernel.  `natDigits n` equals Python `str(n)`. -/
def natDigitsAux : Nat → Nat → Str
  | 0, _ => []
  | f + 1, n => if n < 10 then [decDigit n] else natDigitsAux f (n / 10) ++ [decDigit (n % 10)]

/-- Python `str(n)` for a natural number `n`. -/
def natDigits (n : Nat) : Str := natDigitsAux (n + 1) n

/- ========================================================================
   Unicode repair (`ScormParser._fix_corrupted_unicode`, src/traductor.py
   lines 173-185) and a model of `unicodedata.normalize('NFC', ·)`.
   ======================================================================== -/

/-- The replacement table of `_fix_corrupted_unicode`, in source (insertion)
order: vowel + U+2560 U+00FC becomes the acute vowel, n/N + U+2560 U+0192
becomes ñ/Ñ. -/
def corruptionTable : List (Str × Str) :=
  [ (['a', '╠', 'ü'], ['á']), (['e', '╠', 'ü'], ['é']),
    (['i', '╠', 'ü'], ['í']), (['o', '╠', 'ü'], ['ó']),
    (['u', '╠', 'ü'], ['ú']), (['n', '╠', 'ƒ'], ['ñ']),
    (['A', '╠', 'ü'], ['Á']), (['E', '╠', 'ü'], ['É']),
    (['I', '╠', 'ü'], ['Í']), (['O', '╠', 'ü'], ['Ó']),
    (['U', '╠', 'ü'], ['Ú']), (['N', '╠', 'ƒ'], ['Ñ']) ]

/-- The twelve sequential `str.replace` passes of
`_fix_corrupted_unicode`. -/
def replaceCorruption (s : Str) : Str :=
  corruptionTable.foldl (fun acc p => pyReplace p.1 p.2 acc) s

/-- Canonical decomposition table, restricted to the characters that the
repair table and its surrounding text can produce: the acute Spanish vowels,
ñ/Ñ and ü/Ü with their real Unicode canonical decompositions (base letter
followed by U+0301 / U+0303 / U+0308).  This is the fragment of the Unicode
database that `unicodedata.normalize('NFC', ·)` consults on these inputs. -/
def decompTable : List (Char × Char × Char) :=
  [ ('á', 'a', '́'), ('é', 'e', '́'), ('í', 'i', '́'),
    ('ó', 'o', '́'), ('ú', 'u', '́'), ('ñ', 'n', '̃'),
    ('Á', 'A', '́'), ('É', 'E', '́'), ('Í', 'I', '́'),
    ('Ó', 'O', '́'), ('Ú', 'U', '́'), ('Ñ', 'N', '̃'),
    ('ü', 'u', '̈'), ('Ü', 'U', '̈') ]

/-- Canonical decomposition of a single character (restricted table). -/
def decompMap (c : Char) : Option (Char × Char) :=
  (decompTable.find? (fun r => r.1 = c)).map (fun r => r.2)

/-- Primary composite of a base character and a combining mark (restricted
table). -/
def compPair (a b : Char) : Option Char :=
  (decompTable.find? (fun r => r.2.1 = a ∧ r.2.2 = b)).map (fun r => r.1)

/-- Decomposition pass of the NFC model. -/
def decompStr (s : Str) : Str :=
  s.flatMap (fun c => match decompMap c with
    | some p => [p.1, p.2]
    | none => [c])

/-- Composition pass of the NFC model: compose each adjacent
(base, combining-mark) pair.  In the restricted table no composite character
composes further, so the greedy scan can move on after composing. -/
def composeStr : Str → Str
  | [] => []
  | [c] => [c]
  | c1 :: c2 :: rest =>
    match compPair c1 c2 with
    | some p => p :: composeStr rest
    | none => c1 :: composeStr (c2 :: rest)

/-- Model of `unicodedata.normalize('NFC', s)` over the restricted character
domain: canonical decomposition followed by canonical composition. -/
def nfcStr (s : Str) : Str := composeStr (decompStr s)

/-- `ScormParser._fix_corrupted_unicode`: the twelve replacements followed by
NFC normalization. -/
def fixCorruptedUnicode (s : Str) : Str := nfcStr (replaceCorruption s)

/- Lemmas: the restricted NFC model is idempotent. -/

/-- A ZIP central-directory entry as seen by the extraction checks. -/
structure ZipMember where
  name : Str
  externalAttr : Nat
deriving DecidableEq, Repr

/-- Resolve path components against a base: "." and empty are skipped, ".."
pops (saturating at the filesystem root), anything else is appended. -/
def resolveComps (base : List Str) : List Str → List Str
  | [] => base
  | c :: rest =>
    if c = ([] : Str) ∨ c = ['.'] then resolveComps base rest
    else if c = ['.', '.'] then resolveComps base.dropLast rest
    else resolveComps (base ++ [c]) rest

/-- The resolved target path of a member name joined to the extraction
root (`(extract_path / member).resolve()`). -/
def targetComps (root : List Str) (m : Str) : List Str :=
  if m.head? = some '/' then resolveComps [] (m.splitOn '/')
  else resolveComps root (m.splitOn '/')

/-- `member_path.relative_to(extract_path)` succeeds iff the resolved target
stays below the root. -/
def memberWithin (root : List Str) (m : Str) : Bool :=
  root.isPrefixOf (targetComps root m)

/-- The symlink test of `_safe_extract`:
`(info.external_attr >> 16) & 0o170000 == 0o120000`. -/
def isSymlinkAttr (attr : Nat) : Bool :=
  (attr >>> 16) &&& 0o170000 == 0o120000

/-- A member that `_safe_extract` rejects. -/
def badMember (root : List Str) (m : ZipMember) : Bool :=
  !memberWithin root m.name || isSymlinkAttr m.externalAttr

/-- The validation loop of `_safe_extract`: scan every member, returning the
first error, before anything is extracted. -/
def checkMembers (root : List Str) : List ZipMember → Option Str
  | [] => none
  | m :: rest =>
    if !memberWithin root m.name then some ('t' :: 'r' :: 'a' :: 'v' :: [])
    else if isSymlinkAttr m.externalAttr then some ('s' :: 'y' :: 'm' :: [])
    else checkMembers root rest

/-- Backend `ScormParser._safe_extract`: validate all members first; only if
every check passes call `extractall`, whose writes are the resolved targets
of all members.  An error before extraction means nothing is written. -/
def safeExtract (root : List Str) (members : List ZipMember) :
    Except Str (List (List Str)) :=
  match checkMembers root members with
  | some e => .error e
  | none => .ok (members.map fun m => targetComps root m.name)

/-- `ScormParser._find_manifest` of the CLI: first name that lowercases to a
suffix `imsmanifest.xml` and does not contain `__MACOSX`. -/
def findManifest (names : List Str) : Option Str :=
  names.find? (fun n =>
    ("imsmanifest.xml".toList).isSuffixOf (lowerStr n) &&
      !containsSub ("__MACOSX".toList) n)

/-- CLI `ScormParser._extract_zip`: after locating the manifest it writes
every non-`__MACOSX`, non-directory member to
`extract_path / fixCorruptedUnicode(member)` with no traversal or symlink
check; the returned list is the resolved write targets. -/
def cliExtractZip (root : List Str) (names : List Str) :
    Except Str (List (List Str)) :=
  match findManifest names with
  | none => .error ('n' :: 'o' :: 'm' :: [])
  | some _ =>
      .ok ((names.filter (fun m =>
              !("__MACOSX".toList).isPrefixOf m && m.getLast? ≠ some '/')).map
            (fun m => targetComps root (fixCorruptedUnicode m)))

/-- Whether an `Except` result is an error. -/
def isErr {e a : Type} : Except e a → Bool
  | .error _ => true
  | .ok _ => false

/-- What the validation reads from an archive: `len(zf.namelist())`, the sum
of `info.file_size`, and the on-disk size of the ZIP file. -/
structure ZipStats where
  entryCount : Nat
  totalUncompressed : Nat
  compressedSize : Nat
deriving DecidableEq, Repr

/-- `ScormParser.MAX_UNCOMPRESSED_SIZE` (1 GiB). -/
def maxUncompressedSize : Nat := 1 * 1024 * 1024 * 1024

/-- `ScormParser.MAX_FILES_IN_ZIP`. -/
def maxFilesInZip : Nat := 10000

/-- `ScormParser.MAX_COMPRESSION_RATIO` (100 : 1). -/
def maxCompressionLimit : Nat := 100

/-- `ScormParser._validate_zip_safety`: entry count, then total uncompressed
size, then (when the file size is positive) the compression ratio. -/
def validateZipSafety (z : ZipStats) : Except Str Unit :=
  if z.entryCount > maxFilesInZip then
    .error ('c' :: 'n' :: 't' :: [])
  else if z.totalUncompressed > maxUncompressedSize then
    .error ('s' :: 'i' :: 'z' :: [])
  else if 0 < z.compressedSize ∧
      maxCompressionLimit * z.compressedSize < z.totalUncompressed then
    .error ('r' :: 'a' :: 't' :: [])
  else
    .ok ()

/-- `parse_scorm_package` restricted to the safety step: the safety
validation runs first; only when it passes are the entries extracted (the
omitted preceding manifest check and the subsequent parsing do not extract
anything either). -/
def parseScormPackage (z : ZipStats) (entries : List Str) :
    Except Str (List Str) :=
  match validateZipSafety z with
  | .error e => .error e
  | .ok () => .ok entries

/-- The ZIP entry attributes preserved by `copy.copy(info)` and
`writestr`. -/
structure ZipInfoMeta where
  filename : Str
  dateTime : Nat
  compressType : Nat
  externalAttr : Nat
  internalAttr : Nat
  extra : List Nat
  comment : Str
deriving DecidableEq, Repr

/-- A ZIP entry of the original archive: attributes plus content bytes. -/
structure ZipEntry where
  meta : ZipInfoMeta
  content : List Nat
deriving DecidableEq, Repr

/-- `ScormRebuilder._build_modified_files_map`: every file of the working
directory keyed by its NFC-normalized arcname (the root prefix is already
joined into the given relative names). -/
def buildModifiedMap (workingFiles : List (Str × List Nat)) :
    List (Str × List Nat) :=
  workingFiles.map (fun p => (nfcStr p.1, p.2))

/-- CLI `ScormRebuilder._create_zip`: iterate the original central directory
in order; an entry whose NFC-normalized name is in the modified map gets the
working copy's bytes under a copy of the original attributes
(`_write_modified_entry`); every other entry is copied verbatim
(`_copy_original_entry`).  Nothing else is ever written. -/
def createZip (orig : List ZipEntry) (modified : List (Str × List Nat)) :
    List ZipEntry :=
  orig.map fun e =>
    match modified.find? (fun p => p.1 = nfcStr e.meta.filename) with
    | some p => { e with content := p.2 }
    | none => e

mutual
inductive Json where
  | null : Json
  | bool (b : Bool) : Json
  | num (n : Int) : Json
  | str (s : Str) : Json
  | arr (items : JsonList) : Json
  | obj (fields : JsonObj) : Json
deriving DecidableEq, Repr

inductive JsonList where
  | nil : JsonList
  | cons (hd : Json) (tl : JsonList) : JsonList
deriving DecidableEq, Repr

inductive JsonObj where
  | nil : JsonObj
  | cons (k : Str) (v : Json) (tl : JsonObj) : JsonObj
deriving DecidableEq, Repr
end

/-- One step of the dotted JSON paths the walk builds through f-strings:
either a dict key or a list index. -/
inductive PathComp where
  | fld (k : Str) : PathComp
  | idx (n : Nat) : PathComp
deriving DecidableEq, Repr

/-- `"[" + str(i) + "]"`. -/
def brkIndex (i : Nat) : Str := '[' :: (natDigits i ++ [']'])

/-- One f-string step of path building: `f"{path}.{key}" if path else key`
for a key, `f"{path}[{i}]"` for an index. -/
def appendComp (s : Str) : PathComp → Str
  | .fld k => if s = [] then k else s ++ ('.' :: k)
  | .idx i => s ++ brkIndex i

/-- Path string built from an accumulator by a component sequence. -/
def extendPath (s : Str) : List PathComp → Str
  | [] => s
  | c :: rest => extendPath (appendComp s c) rest

/-- The dotted path string of a component sequence. -/
def renderPath (comps : List PathComp) : Str := extendPath [] comps

/-- `path.replace('.', '_')` (a character-wise map, as both strings are
single characters). -/
def dotsToUnderscores (s : Str) : Str :=
  s.map (fun c => if c = '.' then '_' else c)

/-- `f"rise_{path.replace('.', '_')}"`: the Rise segment id of a path. -/
def riseId (comps : List PathComp) : Str :=
  "rise_".toList ++ dotsToUnderscores (renderPath comps)

/-- `_is_skippable_key`'s set. -/
def skipKeys : List Str :=
  ["id", "key", "src", "href", "color", "icon", "media",
   "settings", "background", "exportSettings"].map String.toList

/-- `ContentExtractor.RISE_FIELDS` (verbatim, including the mixed-case
`buttonText`). -/
def riseFields : List Str :=
  ["title", "heading", "paragraph", "description", "caption",
   "text", "label", "buttonText", "question", "answer", "feedback"].map
    String.toList

/-- `_is_skippable_key`. -/
def isSkippableKey (k : Str) : Bool := skipKeys.contains k

/-- `_is_translatable_key`: `key.lower() in RISE_FIELDS` or
`'labelSet.labels' in path`. -/
def isTranslatableKey (k : Str) (path : Str) : Bool :=
  riseFields.contains (lowerStr k) || containsSub ("labelSet.labels".toList) path

/-- A run of characters all matching a class. -/
def allChars (p : Char → Bool) (s : Str) : Bool := s.all p

/-- `_is_non_text`: URL/protocol prefixes, a ≥32-character lowercase
hex-or-dash token, a hex color, or a digits/punctuation/whitespace-only
string.  `re.match(r'^...$', ·)` is modelled as a full match (the
`$`-before-final-newline corner of Python regexes is not exercised by the
claims). -/
def isNonText (t : Str) : Bool :=
  ("http://".toList).isPrefixOf t || ("https://".toList).isPrefixOf t ||
  ("//".toList).isPrefixOf t || ("mailto:".toList).isPrefixOf t ||
  (32 ≤ t.length &&
    allChars (fun c => ('a' ≤ c && c ≤ 'f') || ('0' ≤ c && c ≤ '9') || c = '-')
      (lowerStr t)) ||
  (match t with
   | '#' :: rest =>
       3 ≤ rest.length && rest.length ≤ 8 &&
         allChars (fun c => ('0' ≤ c && c ≤ '9') || ('a' ≤ c && c ≤ 'f') ||
           ('A' ≤ c && c ≤ 'F')) rest
   | _ => false) ||
  (t ≠ [] && allChars (fun c => ('0' ≤ c && c ≤ '9') || c = '.' || c = ',' ||
    pyIsSpace c) t)

/-- `text = self._clean_html(value) if '<' in value else value.strip()`.
`_clean_html` (BeautifulSoup `get_text`) is passed in as a parameter
`cleanF`; the claims never depend on its output beyond this call. -/
def cleanValue (cleanF : Str → Str) (v : Str) : Str :=
  if v.contains '<' then cleanF v else pyStrip v

/-- A Rise segment as built by `_process_json_value`. -/
structure RiseSeg where
  id : Str
  text : Str
  path : Str
  isHtml : Bool
deriving DecidableEq, Repr

/-- `_process_json_value`: cleaned-length gate, whitelist gate, non-text
gate, then emit one segment whose text keeps the original value. -/
def processJsonValue (cleanF : Str → Str) (v k : Str) (comps : List PathComp) :
    List RiseSeg :=
  let text := cleanValue cleanF v
  if text = [] ∨ text.length < 3 then []
  else if ¬ isTranslatableKey k (renderPath comps) then []
  else if isNonText text then []
  else [⟨riseId comps, v, renderPath comps, v.contains '<'⟩]

mutual
/-- `ContentExtractor._extract_from_json` on a value. -/
def extractJson (cleanF : Str → Str) : Json → List PathComp → List RiseSeg
  | .obj o, comps => extractObj cleanF o comps
  | .arr a, comps => extractArr cleanF a comps 0
  | _, _ => []

/-- `_extract_from_json`'s dict loop: skip-set keys are pruned, string
values of length ≥ 3 go to `_process_json_value`, everything else
recurses. -/
def extractObj (cleanF : Str → Str) : JsonObj → List PathComp → List RiseSeg
  | .nil, _ => []
  | .cons k v tl, comps =>
    (if isSkippableKey k then []
     else
       match v with
       | .str s =>
           if 3 ≤ s.length then processJsonValue cleanF s k (comps ++ [.fld k])
           else []
       | _ => extractJson cleanF v (comps ++ [.fld k])) ++
    extractObj cleanF tl comps

/-- `_extract_from_json`'s list loop (string elements recurse into the
no-op branch, hence are never emitted). -/
def extractArr (cleanF : Str → Str) : JsonList → List PathComp → Nat → List RiseSeg
  | .nil, _, _ => []
  | .cons hd tl, comps, i =>
    extractJson cleanF hd (comps ++ [.idx i]) ++ extractArr cleanF tl comps (i + 1)
end

mutual
/-- `ScormRebuilder._apply_to_json` on a value. -/
def applyJson (tmap : List (Str × Str)) : Json → List PathComp → Json
  | .obj o, comps => .obj (applyObj tmap o comps)
  | .arr a, comps => .arr (applyArr tmap a comps 0)
  | j, _ => j

/-- `_apply_to_json`'s dict loop: any string value whose recomputed id is in
the translation map is replaced (no skip-set check here); other values
recurse. -/
def applyObj (tmap : List (Str × Str)) : JsonObj → List PathComp → JsonObj
  | .nil, _ => .nil
  | .cons k v tl, comps =>
    let v' :=
      match v with
      | .str s =>
          match tmap.find? (fun pr => pr.1 = riseId (comps ++ [.fld k])) with
          | some pr => .str pr.2
          | none => .str s
      | _ => applyJson tmap v (comps ++ [.fld k])
    .cons k v' (applyObj tmap tl comps)

/-- `_apply_to_json`'s list loop. -/
def applyArr (tmap : List (Str × Str)) : JsonList → List PathComp → Nat → JsonList
  | .nil, _, _ => .nil
  | .cons hd tl, comps, i =>
    .cons (applyJson tmap hd (comps ++ [.idx i])) (applyArr tmap tl comps (i + 1))
end

/-- First value stored under a key in an ordered JSON object. -/
def objFind : JsonObj → Str → Option Json
  | .nil, _ => none
  | .cons k v tl, key => if k = key then some v else objFind tl key

/-- n-th element of a JSON array. -/
def listNth : JsonList → Nat → Option Json
  | .nil, _ => none
  | .cons hd _, 0 => some hd
  | .cons _ tl, n + 1 => listNth tl n

/-- The subvalue of a JSON value at a structured path. -/
def getPath : Json → List PathComp → Option Json
  | j, [] => some j
  | .obj o, .fld k :: rest =>
    match objFind o k with
    | some v => getPath v rest
    | none => none
  | .arr a, .idx i :: rest =>
    match listNth a i with
    | some v => getPath v rest
    | none => none
  | _, _ :: _ => none

/-- The dict keys of a path (in order). -/
def fieldsOfPath (comps : List PathComp) : List Str :=
  comps.filterMap (fun c => match c with | .fld k => some k | .idx _ => none)

/-- The final dict key of a path, when the path ends in one. -/
def lastFld : List PathComp → Option Str
  | [] => none
  | [.fld k] => some k
  | [.idx _] => none
  | _ :: c2 :: rest => lastFld (c2 :: rest)

/-- A key that survives the `'.' → '_'` flattening unambiguously: nonempty
and without `'_'`, `'.'` or `'['`. -/
def CleanKey (k : Str) : Prop :=
  k ≠ [] ∧ '_' ∉ k ∧ '.' ∉ k ∧ '[' ∉ k

instance : DecidablePred CleanKey := fun k => by
  unfold CleanKey
  infer_instance

mutual
/-- All dict keys occurring anywhere in a JSON value. -/
def keysOfJson : Json → List Str
  | .obj o => keysOfObj o
  | .arr a => keysOfList a
  | _ => []

def keysOfObj : JsonObj → List Str
  | .nil => []
  | .cons k v tl => k :: (keysOfJson v ++ keysOfObj tl)

def keysOfList : JsonList → List Str
  | .nil => []
  | .cons hd tl => keysOfJson hd ++ keysOfList tl
end

mutual
/-- The paths of all string values sitting directly under a dict key —
exactly the positions `_apply_to_json` may rewrite. -/
def strLeafPaths : Json → List (List PathComp)
  | .obj o => strLeafPathsObj o
  | .arr a => strLeafPathsList a 0
  | _ => []

def strLeafPathsObj : JsonObj → List (List PathComp)
  | .nil => []
  | .cons k v tl =>
    (match v with
     | .str _ => [[PathComp.fld k]]
     | _ => (strLeafPaths v).map (fun r => PathComp.fld k :: r)) ++
    strLeafPathsObj tl

def strLeafPathsList : JsonList → Nat → List (List PathComp)
  | .nil, _ => []
  | .cons hd tl, i =>
    (strLeafPaths hd).map (fun r => PathComp.idx i :: r) ++
      strLeafPathsList tl (i + 1)
end

/-- The flattened-and-tail part of a rendered path: what a nonempty rendered
prefix is extended with, after `'.' → '_'`. -/
def tailRender : List PathComp → Str
  | [] => []
  | .fld k :: r => '_' :: (dotsToUnderscores k ++ tailRender r)
  | .idx i :: r => brkIndex i ++ tailRender r

/-- Normal form of a flattened rendered path. -/
def nfRender : List PathComp → Str
  | [] => []
  | .fld k :: r => dotsToUnderscores k ++ tailRender r
  | .idx i :: r => brkIndex i ++ tailRender r

/-- The per-entry transformation of `_apply_to_json`'s dict loop. -/
def applyEntry (tmap : List (Str × Str)) (comps : List PathComp) (k : Str) :
    Json → Json
  | .str s =>
    match tmap.find? (fun pr => pr.1 = riseId (comps ++ [.fld k])) with
    | some pr => .str pr.2
    | none => .str s
  | v => applyJson tmap v (comps ++ [.fld k])

/- Character-level facts about rendered paths. -/

/-- All dict keys along a component list are clean. -/
def CleanComps (x : List PathComp) : Prop :=
  ∀ k, PathComp.fld k ∈ x → CleanKey k

/-- `'_'`-or-`'['` separator class. -/
def isSepU (c : Char) : Bool := c = '_' || c = '['

/-- Proof device: what `_apply_to_json` makes of the subvalue found at path
`q` (a dict-key string leaf gets the translation lookup; anything else is
the recursive application). -/
def applyResult (tmap : List (Str × Str)) (comps q : List PathComp) (sub : Json) : Json :=
  match sub, lastFld q with
  | .str s, some _ =>
    .str (match tmap.find? (fun pr => pr.1 = riseId (comps ++ q)) with
      | some pr => pr.2
      | none => s)
  | _, _ => applyJson tmap sub (comps ++ q)

/-- A manifest segment (only id and original text are consulted). -/
structure MSeg where
  id : Str
  text : Str
deriving DecidableEq, Repr

/-- The XML escaping used by `_apply_to_manifest`:
`.replace('&','&amp;').replace('<','&lt;').replace('>','&gt;')`. -/
def xmlEscape (s : Str) : Str :=
  pyReplace ['>'] ("&gt;".toList)
    (pyReplace ['<'] ("&lt;".toList)
      (pyReplace ['&'] ("&amp;".toList) s))

/-- `f"<title>{t}</title>"`. -/
def wrapTitle (t : Str) : Str := "<title>".toList ++ t ++ "</title>".toList

/-- One segment step of `_apply_to_manifest`: replace the first occurrence
of the raw `<title>original</title>` by the raw translated form, and — only
when escaping changes the original — additionally one occurrence of the
escaped form by the escaped translated form. -/
def applySegManifest (translations : List (Str × Str)) (content : Str)
    (seg : MSeg) : Str :=
  match translations.find? (fun pr => pr.1 = seg.id) with
  | none => content
  | some pr =>
    let c1 := pyReplaceOnce (wrapTitle seg.text) (wrapTitle pr.2) content
    if xmlEscape seg.text ≠ seg.text then
      pyReplaceOnce (wrapTitle (xmlEscape seg.text)) (wrapTitle (xmlEscape pr.2)) c1
    else c1

/-- `ScormRebuilder._apply_to_manifest`: fold the per-segment replacement
over the segments in order. -/
def applyToManifest (segments : List MSeg) (translations : List (Str × Str))
    (content : Str) : Str :=
  segments.foldl (applySegManifest translations) content

/-- A segment as the translator sees it. -/
structure TSeg where
  id : Str
  text : Str
  isHtml : Bool
deriving DecidableEq, Repr

/-- `Translator._translate_segment`: the HTML path never returns `None`;
the plain path returns `None` for texts shorter than 2 characters and
otherwise calls the external translator. -/
def translateSegment (f g : Str → Except Unit Str) (seg : TSeg) :
    Except Unit (Option Str) :=
  if seg.isHtml then (g seg.text).map some
  else if seg.text.length < 2 then .ok none
  else (f seg.text).map some

/-- Python dict assignment `translations[seg.id] = v`. -/
def dictInsert (m : List (Str × Str)) (k v : Str) : List (Str × Str) :=
  if m.any (fun pr => pr.1 = k) then
    m.map (fun pr => if pr.1 = k then (k, v) else pr)
  else m ++ [(k, v)]

/-- `Translator._translate_segment_safe`: an exception stores the original
text; a truthy result is stored; `None` or an empty result stores
nothing. -/
def translateSegmentSafe (f g : Str → Except Unit Str)
    (tr : List (Str × Str)) (seg : TSeg) : List (Str × Str) :=
  match translateSegment f g seg with
  | .ok (some r) => if r ≠ [] then dictInsert tr seg.id r else tr
  | .ok none => tr
  | .error _ => dictInsert tr seg.id seg.text

/-- `Translator.translate`: fold the safe per-segment step over the
segments in order, starting from an empty dict. -/
def translateCLI (f g : Str → Except Unit Str) (segs : List TSeg) :
    List (Str × Str) :=
  segs.foldl (translateSegmentSafe f g) []

/-- The entry the safe step stores for one segment (`none` when it stores
nothing): the translation when the call succeeds with a truthy result, the
original text when the call raises. -/
def expectedEntry (f g : Str → Except Unit Str) (seg : TSeg) : Option Str :=
  match translateSegment f g seg with
  | .error _ => some seg.text
  | .ok none => none
  | .ok (some r) => if r = [] then none else some r

mutual
inductive HNode where
  | text (s : Str) : HNode
  | elem (tag : Str) (children : HList) : HNode
deriving DecidableEq, Repr

inductive HList where
  | nil : HList
  | cons (hd : HNode) (tl : HList) : HList
deriving DecidableEq, Repr
end

mutual
/-- BeautifulSoup `get_text(strip=True)` (separator `''`): every descendant
text node stripped, empties dropped, concatenated. -/
def getTextStrip : HNode → Str
  | .text s => pyStrip s
  | .elem _ ch => getTextStripList ch

def getTextStripList : HList → Str
  | .nil => []
  | .cons hd tl => getTextStrip hd ++ getTextStripList tl
end

/-- Backend `_get_direct_text`: strip each *immediate* text child, drop
empties, join with single spaces. -/
def directTexts : HList → List Str
  | .nil => []
  | .cons (.text s) tl =>
    if pyStrip s = [] then directTexts tl else pyStrip s :: directTexts tl
  | .cons (.elem _ _) tl => directTexts tl

/-- `_get_direct_text` on an element's children. -/
def directText : HNode → Str
  | .text _ => []
  | .elem _ ch => List.intercalate [' '] (directTexts ch)

/-- `script/style/code/pre/noscript`: subtrees removed (`decompose`) before
scanning, in both extractors. -/
def nonTranslatableTags : List Str :=
  ["script", "style", "code", "pre", "noscript"].map String.toList

mutual
/-- Remove the non-translatable subtrees. -/
def pruneNode : HNode → HNode
  | .text s => .text s
  | .elem t ch => .elem t (pruneList ch)

def pruneList : HList → HList
  | .nil => .nil
  | .cons (.elem t ch) tl =>
    if nonTranslatableTags.contains t then pruneList tl
    else .cons (.elem t (pruneList ch)) (pruneList tl)
  | .cons (.text s) tl => .cons (.text s) (pruneList tl)
end

mutual
/-- `soup.find_all(tag)`: the elements carrying `tag`, in document
(pre-order) sequence. -/
def findAllNode (tag : Str) : HNode → List HNode
  | .text _ => []
  | .elem t ch =>
    (if t = tag then [HNode.elem t ch] else []) ++ findAllList tag ch

def findAllList (tag : Str) : HList → List HNode
  | .nil => []
  | .cons hd tl => findAllNode tag hd ++ findAllList tag tl
end

mutual
/-- All elements of a tree, pre-order. -/
def allElemsNode : HNode → List HNode
  | .text _ => []
  | .elem t ch => HNode.elem t ch :: allElemsList ch

def allElemsList : HList → List HNode
  | .nil => []
  | .cons hd tl => allElemsNode hd ++ allElemsList tl
end

/-- Backend `extract_from_html_file`, text segments: prune, then for each
translatable tag in turn, for each matching element in document order, emit
`(tag, stripped direct text)` when the direct text is truthy and its strip
has length ≥ 3.  (Segment ids and attribute segments, which the claim does
not touch, are omitted in the model.) -/
def backendExtractHtml (tags : List Str) (root : HNode) : List (Str × Str) :=
  tags.foldl (fun acc t =>
    acc ++ (findAllNode t (pruneNode root)).foldl (fun acc2 e =>
      acc2 ++
        (let txt := directText e
         if txt ≠ [] ∧ 3 ≤ (pyStrip txt).length then [(t, pyStrip txt)] else [])) [])
    []

mutual
/-- CLI `ContentExtractor.TEXT_TAGS` extraction of element text:
`find_all(TEXT_TAGS)` walks the document once in pre-order over the tag
set; the emitted text is `get_text(strip=True)` — the full descendant
text. -/
def cliFindAllTags (tags : List Str) : HNode → List HNode
  | .text _ => []
  | .elem t ch =>
    (if tags.contains t then [HNode.elem t ch] else []) ++ cliFindAllTagsList tags ch

def cliFindAllTagsList (tags : List Str) : HList → List HNode
  | .nil => []
  | .cons hd tl => cliFindAllTags tags hd ++ cliFindAllTagsList tags tl
end

/-- CLI `_extract_html` text segments: each matched element's
`get_text(strip=True)` when nonempty of length ≥ 3. -/
def cliExtractHtml (tags : List Str) (root : HNode) : List (Str × Str) :=
  (cliFindAllTags tags (pruneNode root)).filterMap (fun e =>
    let txt := getTextStrip e
    if txt ≠ [] ∧ 3 ≤ txt.length then
      some (match e with | .elem t _ => t | .text _ => [], txt)
    else none)

/-- The tag selector of `find_all(tag)`. -/
def hasTag (tag : Str) : HNode → Bool
  | .elem t _ => t = tag
  | .text _ => false

/-- UTF-8 encoding of one scalar value. -/
def utf8EncodeChar (c : Char) : List Nat :=
  let n := c.toNat
  if n < 0x80 then [n]
  else if n < 0x800 then [0xC0 + n / 64, 0x80 + n % 64]
  else if n < 0x10000 then
    [0xE0 + n / 4096, 0x80 + (n / 64) % 64, 0x80 + n % 64]
  else
    [0xF0 + n / 262144, 0x80 + (n / 4096) % 64, 0x80 + (n / 64) % 64, 0x80 + n % 64]

/-- `str.encode('utf-8')`. -/
def utf8Encode (s : Str) : List Nat := s.flatMap utf8EncodeChar

/-- `bytes.decode('utf-8')` (errors yield `none`). -/
def utf8Decode : List Nat → Option Str
  | [] => some []
  | b :: rest =>
    if b < 0x80 then (utf8Decode rest).map (Char.ofNat b :: ·)
    else if b < 0xC0 then none
    else if b < 0xE0 then
      match rest with
      | b2 :: rest2 =>
        if 0x80 ≤ b2 ∧ b2 < 0xC0 then
          (utf8Decode rest2).map (Char.ofNat ((b - 0xC0) * 64 + (b2 - 0x80)) :: ·)
        else none
      | [] => none
    else if b < 0xF0 then
      match rest with
      | b2 :: b3 :: rest3 =>
        if (0x80 ≤ b2 ∧ b2 < 0xC0) ∧ (0x80 ≤ b3 ∧ b3 < 0xC0) then
          (utf8Decode rest3).map
            (Char.ofNat ((b - 0xE0) * 4096 + (b2 - 0x80) * 64 + (b3 - 0x80)) :: ·)
        else none
      | _ => none
    else
      match rest with
      | b2 :: b3 :: b4 :: rest4 =>
        if (0x80 ≤ b2 ∧ b2 < 0xC0) ∧ (0x80 ≤ b3 ∧ b3 < 0xC0) ∧ (0x80 ≤ b4 ∧ b4 < 0xC0) then
          (utf8Decode rest4).map
            (Char.ofNat ((b - 0xF0) * 262144 + (b2 - 0x80) * 4096
              + (b3 - 0x80) * 64 + (b4 - 0x80)) :: ·)
        else none
      | _ => none

/-- The base64 alphabet. -/
def b64Alphabet : Str :=
  "ABCDEFGHIJKLMNOPQRSTUVWXYZabcdefghijklmnopqrstuvwxyz0123456789+/".toList

/-- Alphabet character of a 6-bit value. -/
def b64Char (n : Nat) : Char := b64Alphabet.getD n 'A'

/-- 6-bit value of an alphabet character. -/
def b64CharVal (c : Char) : Option Nat := b64Alphabet.indexOf? c

/-- `base64.b64encode` over bytes. -/
def b64encode : List Nat → Str
  | [] => []
  | [a] => [b64Char (a / 4), b64Char ((a % 4) * 16), '=', '=']
  | [a, b] => [b64Char (a / 4), b64Char ((a % 4) * 16 + b / 16),
               b64Char ((b % 16) * 4), '=']
  | a :: b :: c :: rest =>
    [b64Char (a / 4), b64Char ((a % 4) * 16 + b / 16),
     b64Char ((b % 16) * 4 + c / 64), b64Char (c % 64)] ++ b64encode rest

/-- `base64.b64decode` over an alphabet-only string (padding must make the
length a multiple of four, as `binascii` requires). -/
def b64decode : Str → Option (List Nat)
  | [] => some []
  | c1 :: c2 :: c3 :: c4 :: rest =>
    (match b64CharVal c1, b64CharVal c2 with
     | some v1, some v2 =>
       if c3 = '=' ∧ c4 = '=' ∧ rest = [] then
         some [v1 * 4 + v2 / 16]
       else if c4 = '=' ∧ rest = [] then
         match b64CharVal c3 with
         | some v3 => some [v1 * 4 + v2 / 16, (v2 % 16) * 16 + v3 / 4]
         | none => none
       else
         match b64CharVal c3, b64CharVal c4 with
         | some v3, some v4 =>
           (b64decode rest).map (fun tail =>
             (v1 * 4 + v2 / 16) :: ((v2 % 16) * 16 + v3 / 4) :: ((v3 % 4) * 64 + v4) :: tail)
         | _, _ => none
     | _, _ => none)
  | _ => none

/-- Lowercase hex digit. -/
def hexDigit (n : Nat) : Char := ("0123456789abcdef".toList).getD n '0'

/-- `json.dumps` escaping of one string character (`ensure_ascii=False`:
non-ASCII passes through). -/
def escapeJsonChar (c : Char) : Str :=
  if c = '"' then ['\\', '"']
  else if c = '\\' then ['\\', '\\']
  else if c = '\n' then ['\\', 'n']
  else if c = '\t' then ['\\', 't']
  else if c = '\r' then ['\\', 'r']
  else if c = '\x08' then ['\\', 'b']
  else if c = '\x0c' then ['\\', 'f']
  else if c.toNat < 0x20 then
    '\\' :: 'u' :: '0' :: '0' :: [hexDigit (c.toNat / 16), hexDigit (c.toNat % 16)]
  else [c]

/-- A JSON string literal as `json.dumps` writes it. -/
def dumpsStr (s : Str) : Str := '"' :: (s.flatMap escapeJsonChar ++ ['"'])

/-- `str(n)` for an integer. -/
def intDumps (n : Int) : Str :=
  if n < 0 then '-' :: natDigits n.natAbs else natDigits n.toNat

mutual
/-- `json.dumps(·, ensure_ascii=False)` with the default separators
`(', ', ': ')`. -/
def jsonDumps : Json → Str
  | .null => "null".toList
  | .bool true => "true".toList
  | .bool false => "false".toList
  | .num n => intDumps n
  | .str s => dumpsStr s
  | .arr a => '[' :: (dumpsArr a true ++ [']'])
  | .obj o => Char.ofNat 123 :: (dumpsObj o true ++ [Char.ofNat 125])

def dumpsArr : JsonList → Bool → Str
  | .nil, _ => []
  | .cons hd tl, first =>
    (if first then [] else [',', ' ']) ++ jsonDumps hd ++ dumpsArr tl false

def dumpsObj : JsonObj → Bool → Str
  | .nil, _ => []
  | .cons k v tl, first =>
    (if first then [] else [',', ' ']) ++ dumpsStr k ++ [':', ' ']
      ++ jsonDumps v ++ dumpsObj tl false
end

/-- JSON whitespace skipping in `json.loads`. -/
def skipWs (s : Str) : Str :=
  s.dropWhile (fun c => c = ' ' || c = '\t' || c = '\n' || c = '\r')

/-- Value of a hex digit, for `\uXXXX` escapes. -/
def hexVal (c : Char) : Option Nat :=
  if '0' ≤ c ∧ c ≤ '9' then some (c.toNat - 48)
  else if 'a' ≤ c ∧ c ≤ 'f' then some (c.toNat - 87)
  else if 'A' ≤ c ∧ c ≤ 'F' then some (c.toNat - 55)
  else none

/-- The body of a JSON string literal, after the opening quote. -/
def parseStrBody : Str → Option (Str × Str)
  | [] => none
  | '"' :: r => some ([], r)
  | '\\' :: 'u' :: h1 :: h2 :: h3 :: h4 :: r =>
    match hexVal h1, hexVal h2, hexVal h3, hexVal h4 with
    | some a, some b, some c, some d =>
      (parseStrBody r).map (fun pr =>
        (Char.ofNat (a * 4096 + b * 256 + c * 16 + d) :: pr.1, pr.2))
    | _, _, _, _ => none
  | '\\' :: e :: r =>
    (if e = '"' then some '"'
     else if e = '\\' then some '\\'
     else if e = '/' then some '/'
     else if e = 'n' then some '\n'
     else if e = 't' then some '\t'
     else if e = 'r' then some '\r'
     else if e = 'b' then some '\x08'
     else if e = 'f' then some '\x0c'
     else none).bind (fun c => (parseStrBody r).map (fun pr => (c :: pr.1, pr.2)))
  | c :: r => (parseStrBody r).map (fun pr => (c :: pr.1, pr.2))

/-- A run of decimal digits as a number (with the remaining input). -/
def parseDigits : Str → Option (Nat × Str)
  | s =>
    let ds := s.takeWhile (fun c => '0' ≤ c && c ≤ '9')
    if ds = [] then none
    else some (ds.foldl (fun acc c => acc * 10 + (c.toNat - 48)) 0,
      s.dropWhile (fun c => '0' ≤ c && c ≤ '9'))

/-- Integer numeral (a following `.`, `e` or `E` — a float — is outside the
model and fails). -/
def parseIntLit (s : Str) : Option (Int × Str) :=
  match s with
  | '-' :: r =>
    (parseDigits r).bind (fun pr =>
      match pr.2 with
      | '.' :: _ => none
      | 'e' :: _ => none
      | 'E' :: _ => none
      | _ => some (-(pr.1 : Int), pr.2))
  | _ =>
    (parseDigits s).bind (fun pr =>
      match pr.2 with
      | '.' :: _ => none
      | 'e' :: _ => none
      | 'E' :: _ => none
      | _ => some ((pr.1 : Int), pr.2))

/-- Python-dict insertion for object literals: a repeated key keeps its
first position and takes the last value. -/
def objInsert : JsonObj → Str → Json → JsonObj
  | .nil, k, v => .cons k v .nil
  | .cons k' v' tl, k, v =>
    if k' = k then .cons k' v tl else .cons k' v' (objInsert tl k v)

/-- Left-to-right dict construction from textual members. -/
def dedupeObjAux (acc : JsonObj) : JsonObj → JsonObj
  | .nil => acc
  | .cons k v tl => dedupeObjAux (objInsert acc k v) tl

/-- The dict a sequence of object members denotes. -/
def dedupeObj (o : JsonObj) : JsonObj := dedupeObjAux .nil o

mutual
/-- `json.loads`, fuelled recursive descent (the fuel bounds nesting and
sequence length; `jsonLoads` supplies enough). -/
def parseJsonF : Nat → Str → Option (Json × Str)
  | 0, _ => none
  | fuel + 1, s =>
    match skipWs s with
    | [] => none
    | c :: rest =>
      if c = 'n' then
        if ("ull".toList).isPrefixOf rest then some (.null, rest.drop 3) else none
      else if c = 't' then
        if ("rue".toList).isPrefixOf rest then some (.bool true, rest.drop 3) else none
      else if c = 'f' then
        if ("alse".toList).isPrefixOf rest then some (.bool false, rest.drop 4) else none
      else if c = '"' then
        (parseStrBody rest).map (fun pr => (.str pr.1, pr.2))
      else if c = '[' then
        match skipWs rest with
        | ']' :: r2 => some (.arr .nil, r2)
        | r2 => (parseArrItems fuel r2).map (fun pr => (.arr pr.1, pr.2))
      else if c = Char.ofNat 123 then
        match skipWs rest with
        | r2 =>
          if r2.head? = some (Char.ofNat 125) then some (.obj .nil, r2.drop 1)
          else (parseObjItems fuel r2).map (fun pr => (.obj (dedupeObj pr.1), pr.2))
      else
        (parseIntLit (c :: rest)).map (fun pr => (.num pr.1, pr.2))

/-- Comma-separated array items up to `]`. -/
def parseArrItems : Nat → Str → Option (JsonList × Str)
  | 0, _ => none
  | fuel + 1, s =>
    (parseJsonF fuel s).bind (fun pr =>
      match skipWs pr.2 with
      | ',' :: r2 => (parseArrItems fuel r2).map (fun pr2 => (.cons pr.1 pr2.1, pr2.2))
      | ']' :: r2 => some (.cons pr.1 .nil, r2)
      | _ => none)

/-- Comma-separated `"key": value` members up to the closing brace. -/
def parseObjItems : Nat → Str → Option (JsonObj × Str)
  | 0, _ => none
  | fuel + 1, s =>
    match skipWs s with
    | '"' :: r =>
      (parseStrBody r).bind (fun kpr =>
        match skipWs kpr.2 with
        | ':' :: r2 =>
          (parseJsonF fuel r2).bind (fun vpr =>
            match skipWs vpr.2 with
            | ',' :: r3 =>
              (parseObjItems fuel r3).map (fun opr =>
                (.cons kpr.1 vpr.1 opr.1, opr.2))
            | c :: r3 =>
              if c = Char.ofNat 125 then some (.cons kpr.1 vpr.1 .nil, r3) else none
            | [] => none)
        | _ => none)
    | _ => none
end

/-- `json.loads`: whole-input parse. -/
def jsonLoads (s : Str) : Option Json :=
  match parseJsonF (s.length + 1) s with
  | some pr => if skipWs pr.2 = [] then some pr.1 else none
  | none => none

/-- Membership in the regex class `[A-Za-z0-9+/=]`. -/
def isB64Char (c : Char) : Bool :=
  ('A' ≤ c && c ≤ 'Z') || ('a' ≤ c && c ≤ 'z') || ('0' ≤ c && c ≤ '9') ||
    c = '+' || c = '/' || c = '='

/-- Match `deserialize\("([A-Za-z0-9+/=]+)"\)` anchored at the given
position: the greedy class run must be nonempty and be followed by `")`. -/
def matchDeser (s : Str) : Option (Str × Str) :=
  if ("deserialize(\"".toList).isPrefixOf s then
    if (s.drop 13).takeWhile isB64Char ≠ [] ∧
        ("\")".toList).isPrefixOf ((s.drop 13).dropWhile isB64Char) then
      some ((s.drop 13).takeWhile isB64Char, (s.drop 13).dropWhile isB64Char)
    else none
  else none

/-- `re.search` for the deserialize pattern: first position, left to right.
Returns (bytes before the captured group, captured group, bytes from the
closing quote on). -/
def riseSearchAux : Str → Str → Option (Str × Str × Str)
  | _, [] => none
  | acc, c :: rest =>
    match matchDeser (c :: rest) with
    | some pr => some (acc.reverse ++ "deserialize(\"".toList, pr.1, pr.2)
    | none => riseSearchAux (c :: acc) rest

/-- The regex search of `_apply_to_rise`. -/
def riseSearch (content : Str) : Option (Str × Str × Str) :=
  riseSearchAux [] content

/-- `_apply_to_rise` after a successful JSON decode: apply, re-serialize,
re-encode, splice (with the source's empty-base64 guard). -/
def applyToRiseEncode (tmap : List (Str × Str)) (content pre post : Str)
    (data : Json) : Str :=
  let newB64 := b64encode (utf8Encode (jsonDumps (applyJson tmap data [])))
  if newB64 = [] then content else pre ++ newB64 ++ post

/-- `_apply_to_rise` after a successful UTF-8 decode. -/
def applyToRiseLoads (tmap : List (Str × Str)) (content pre post : Str)
    (decoded : Str) : Str :=
  match jsonLoads decoded with
  | none => content
  | some data => applyToRiseEncode tmap content pre post data

/-- `_apply_to_rise` after a successful base64 decode. -/
def applyToRiseUtf8 (tmap : List (Str × Str)) (content pre post : Str)
    (bs : List Nat) : Str :=
  match utf8Decode bs with
  | none => content
  | some decoded => applyToRiseLoads tmap content pre post decoded

/-- The decode / apply / re-encode / splice body of `_apply_to_rise`, once
the regex has matched. -/
def applyToRiseBody (tmap : List (Str × Str)) (content pre g post : Str) : Str :=
  match b64decode g with
  | none => content
  | some bs => applyToRiseUtf8 tmap content pre post bs

/-- `ScormRebuilder._apply_to_rise`: search, decode (base64, then UTF-8,
then JSON), apply the translations, re-serialize, re-encode, and splice the
new base64 between the captured group's boundaries; any failure leaves the
file unchanged. -/
def applyToRise (tmap : List (Str × Str)) (content : Str) : Str :=
  match riseSearch content with
  | none => content
  | some (pre, g, post) => applyToRiseBody tmap content pre g post

theorem decompTable_heads_not_decomposable :
    ∀ r ∈ decompTable, decompMap r.2.1 = none ∧ decompMap r.2.2 = none := by
  decide

theorem decompTable_first_component :
    ∀ r ∈ decompTable, decompMap r.1 = some r.2 := by
  decide

theorem decompMap_mem {c : Char} {p : Char × Char} (h : decompMap c = some p) :
    (c, p) ∈ decompTable := by
  unfold decompMap at h
  rw [Option.map_eq_some'] at h
  obtain ⟨r, hf, hr⟩ := h
  have hmem := List.mem_of_find?_eq_some hf
  have hpr := List.find?_some hf
  simp only [decide_eq_true_eq] at hpr
  subst hr
  subst hpr
  simpa using hmem

theorem compPair_mem {a b p : Char} (h : compPair a b = some p) :
    (p, a, b) ∈ decompTable := by
  unfold compPair at h
  rw [Option.map_eq_some'] at h
  obtain ⟨r, hf, hr⟩ := h
  have hmem := List.mem_of_find?_eq_some hf
  have hpr := List.find?_some hf
  simp only [decide_eq_true_eq] at hpr
  subst hr
  obtain ⟨h1, h2⟩ := hpr
  have : r = (r.1, a, b) := by
    cases r with
    | mk r1 r2 => cases r2 with
      | mk r21 r22 => simp_all
  rw [← this]
  exact hmem

/-- Characters produced by the decomposition pass decompose no further. -/
theorem decompStr_not_decomposable (s : Str) :
    ∀ c ∈ decompStr s, decompMap c = none := by
  intro c hc
  unfold decompStr at hc
  simp only [List.mem_flatMap] at hc
  obtain ⟨a, _, hin⟩ := hc
  cases hd : decompMap a with
  | none => rw [hd] at hin; simp at hin; subst hin; exact hd
  | some p =>
    rw [hd] at hin
    have hmem := decompMap_mem hd
    have := decompTable_heads_not_decomposable (a, p) hmem
    simp only [List.mem_cons, List.mem_singleton, List.not_mem_nil, or_false] at hin
    rcases hin with h | h <;> subst h
    · exact this.1
    · exact this.2

/-- Composing a fully decomposed string and decomposing again gives the
string back. -/
theorem decompStr_composeStr (t : Str) (h : ∀ c ∈ t, decompMap c = none) :
    decompStr (composeStr t) = t := by
  induction t using composeStr.induct with
  | case1 => simp [composeStr, decompStr]
  | case2 c =>
    simp [composeStr, decompStr, h c (by simp)]
  | case3 c1 c2 rest p hp ih =>
    have hrest : ∀ c ∈ rest, decompMap c = none := fun c hc => h c (by simp [hc])
    rw [composeStr, hp]
    have hmem := compPair_mem hp
    have hdp : decompMap p = some (c1, c2) := decompTable_first_component (p, c1, c2) hmem
    show decompStr (p :: composeStr rest) = c1 :: c2 :: rest
    rw [show decompStr (p :: composeStr rest) = (match decompMap p with
      | some q => [q.1, q.2] | none => [p]) ++ decompStr (composeStr rest) from by
        simp [decompStr]]
    rw [hdp, ih hrest]
    rfl
  | case4 c1 c2 rest hp ih =>
    have htl : ∀ c ∈ c2 :: rest, decompMap c = none := fun c hc => h c (by simp_all)
    rw [composeStr, hp]
    show decompStr (c1 :: composeStr (c2 :: rest)) = c1 :: c2 :: rest
    rw [show decompStr (c1 :: composeStr (c2 :: rest)) = (match decompMap c1 with
      | some q => [q.1, q.2] | none => [c1]) ++ decompStr (composeStr (c2 :: rest)) from by
        simp [decompStr]]
    rw [h c1 (by simp), ih htl]
    rfl

/-- The restricted NFC model is idempotent. -/
theorem nfcStr_idem (s : Str) : nfcStr (nfcStr s) = nfcStr s := by
  unfold nfcStr
  rw [decompStr_composeStr (decompStr s) (decompStr_not_decomposable s)]

/-- C10 counterexample: the filename-repair function is not idempotent.  On
`"a" U+2560 "u" U+0308` the first pass changes nothing (no corruption
sequence is present) but NFC composes `u` + combining diaeresis into `ü`,
creating the corruption sequence `a U+2560 U+00FC`; the second pass then
collapses it to `á`. -/
theorem fix_not_idempotent_cex :
    fixCorruptedUnicode (fixCorruptedUnicode ['a', '╠', 'u', '̈'])
      ≠ fixCorruptedUnicode ['a', '╠', 'u', '̈'] := by
  decide

/-- C10 (amended): the repaired name is always a fixed point of NFC
normalization, and the repair is idempotent on every input whose repaired
form contains no remaining corruption sequence (i.e. on which the
replacement pass acts as the identity); idempotence fails in general because
NFC can re-create a corruption sequence (see the counterexample). -/
theorem fixCorruptedUnicode_spec (s : Str) :
    nfcStr (fixCorruptedUnicode s) = fixCorruptedUnicode s ∧
      (replaceCorruption (fixCorruptedUnicode s) = fixCorruptedUnicode s →
        fixCorruptedUnicode (fixCorruptedUnicode s) = fixCorruptedUnicode s) := by
  constructor
  · exact nfcStr_idem (replaceCorruption s)
  · intro h
    show nfcStr (replaceCorruption (fixCorruptedUnicode s)) = fixCorruptedUnicode s
    rw [h]
    exact nfcStr_idem (replaceCorruption s)

/-- C10 witness: the hypothesis of `fixCorruptedUnicode_spec` is satisfied at
the concrete input "Módulo╠.html" and the conclusions evaluate there. -/
theorem fixCorruptedUnicode_spec_witness :
    nfcStr (fixCorruptedUnicode ('M' :: ['ó', 'd', 'u', 'l', 'o', '╠']))
        = fixCorruptedUnicode ('M' :: ['ó', 'd', 'u', 'l', 'o', '╠']) ∧
      fixCorruptedUnicode (fixCorruptedUnicode ('M' :: ['ó', 'd', 'u', 'l', 'o', '╠']))
        = fixCorruptedUnicode ('M' :: ['ó', 'd', 'u', 'l', 'o', '╠']) := by
  refine ⟨(fixCorruptedUnicode_spec _).1, (fixCorruptedUnicode_spec _).2 ?_⟩
  decide

/- ========================================================================
   C1: safe archive extraction.
   Backend: `ScormParser._safe_extract`
   (src/backend/app/services/scorm_parser.py lines 148-188).
   CLI: `ScormParser._extract_zip` (src/traductor.py lines 145-171).
   Paths are modelled as component lists; `(root / member).resolve()` is
   modelled by splitting the member name on '/' and folding the components
   over the root, with ".." popping one component (and saturating at the
   filesystem root) and "." or empty components skipped, an absolute member
   name replacing the root, exactly as POSIX path resolution does.
   ======================================================================== -/

/-- C1 counterexample: the CLI extraction operation accepts an archive whose
entry `../evil.sh` escapes the extraction root, reports success, and writes
a file outside the root — the claim's "fails with an unsafe-archive error
and no entry is written to disk" is false for it. -/
theorem cliExtractZip_cex :
    cliExtractZip [['t', 'm', 'p'], ['x']]
        ["imsmanifest.xml".toList, "../evil.sh".toList]
      = .ok [[['t', 'm', 'p'], ['x'], "imsmanifest.xml".toList],
             [['t', 'm', 'p'], "evil.sh".toList]] ∧
    ¬ [['t', 'm', 'p'], ['x']].isPrefixOf [['t', 'm', 'p'], "evil.sh".toList] := by
  constructor
  · rfl
  · decide

/-- The validation loop accepts exactly the archives with no bad member. -/
theorem checkMembers_none_iff (root : List Str) (members : List ZipMember) :
    checkMembers root members = none ↔ ∀ m ∈ members, badMember root m = false := by
  induction members with
  | nil => simp [checkMembers]
  | cons hd tl ih =>
    unfold checkMembers
    by_cases h1 : memberWithin root hd.name
    · by_cases h2 : isSymlinkAttr hd.externalAttr
      · simp [h1, h2, badMember]
      · simp [h1, h2, ih, badMember]
    · simp only [Bool.not_eq_true] at h1
      simp [h1, badMember]

/-- C1 (amended, restricted to the backend `_safe_extract`): every entry is
checked before any extraction begins; extraction fails iff some entry
escapes the root or carries symlink mode bits, and on failure nothing is
written; on success every written path stays below the extraction root.
The CLI `_extract_zip` performs no such checks (see the counterexample). -/
theorem safeExtract_spec (root : List Str) (members : List ZipMember) :
    ((∃ m ∈ members, badMember root m) ↔ isErr (safeExtract root members)) ∧
      (∀ ws, safeExtract root members = .ok ws →
        ∀ p ∈ ws, root.isPrefixOf p) := by
  constructor
  · constructor
    · intro ⟨m, hmem, hbad⟩
      unfold safeExtract
      cases hc : checkMembers root members with
      | none =>
        have := (checkMembers_none_iff root members).mp hc m hmem
        rw [this] at hbad
        exact absurd hbad (by simp)
      | some e => simp [isErr]
    · intro herr
      unfold safeExtract at herr
      cases hc : checkMembers root members with
      | none => rw [hc] at herr; simp [isErr] at herr
      | some e =>
        by_contra hno
        push_neg at hno
        have : checkMembers root members = none := by
          rw [checkMembers_none_iff]
          intro m hm
          have := hno m hm
          simpa using this
        rw [this] at hc
        exact absurd hc (by simp)
  · intro ws hok p hp
    unfold safeExtract at hok
    cases hc : checkMembers root members with
    | some e => rw [hc] at hok; simp at hok
    | none =>
      rw [hc] at hok
      simp only [Except.ok.injEq] at hok
      subst hok
      simp only [List.mem_map] at hp
      obtain ⟨m, hmem, htgt⟩ := hp
      have hgood := (checkMembers_none_iff root members).mp hc m hmem
      simp only [badMember, Bool.or_eq_false_iff, Bool.not_eq_false'] at hgood
      subst htgt
      exact hgood.1

/-- C1 witness: `safeExtract_spec` applied at a concrete archive with a
traversal entry — the extraction errors out — and at a concrete clean
archive — every write lands below the root. -/
theorem safeExtract_spec_witness :
    isErr (safeExtract [['r']] [⟨"../evil.sh".toList, 0⟩]) ∧
      (∀ ws, safeExtract [['r']] [⟨"a/b.txt".toList, 0⟩] = .ok ws →
        ∀ p ∈ ws, [['r']].isPrefixOf p) := by
  constructor
  · exact (safeExtract_spec [['r']] [⟨"../evil.sh".toList, 0⟩]).1.mp
      ⟨⟨"../evil.sh".toList, 0⟩, by simp, by decide⟩
  · exact (safeExtract_spec [['r']] [⟨"a/b.txt".toList, 0⟩]).2

/- ========================================================================
   C2: pre-extraction safety validation.
   `ScormParser._validate_zip_safety`
   (src/backend/app/services/scorm_parser.py lines 94-146) with the limits
   of lines 66-69, and its call site `parse_scorm_package` (lines 238-294)
   where it runs before `_safe_extract`.  The float division
   `total_uncompressed / compressed_size > 100` is modelled exactly over the
   integers as `total > 100 * compressed`.
   ======================================================================== -/

/-- C2: for a well-formed archive (positive file size) validation fails iff
the entry count exceeds 10,000, or the total uncompressed size exceeds
1 GiB, or uncompressed exceeds 100 times compressed; and a rejected archive
yields no extracted files. -/
theorem validateZipSafety_spec (z : ZipStats) (hwf : 0 < z.compressedSize) :
    (isErr (validateZipSafety z) ↔
        (10000 < z.entryCount ∨ 1073741824 < z.totalUncompressed ∨
          100 * z.compressedSize < z.totalUncompressed)) ∧
      (∀ entries, isErr (validateZipSafety z) →
        isErr (parseScormPackage z entries)) := by
  constructor
  · unfold validateZipSafety maxFilesInZip maxUncompressedSize maxCompressionLimit
    by_cases h1 : z.entryCount > 10000
    · simp [h1, isErr]
    · by_cases h2 : z.totalUncompressed > 1 * 1024 * 1024 * 1024
      · simp [h1, h2, isErr]
        try omega
      · by_cases h3 : 0 < z.compressedSize ∧ 100 * z.compressedSize < z.totalUncompressed
        · simp [h1, h2, h3, isErr]
          try omega
        · simp [h1, h2, h3, isErr]
          try omega
  · intro entries herr
    unfold parseScormPackage
    cases hv : validateZipSafety z with
    | error e => simp [isErr]
    | ok u => rw [hv] at herr; simp [isErr] at herr

/-- C2 witness: an archive with 11,000 entries is rejected and produces no
extracted files. -/
theorem validateZipSafety_spec_witness :
    isErr (validateZipSafety ⟨11000, 5000, 2000⟩) ∧
      isErr (parseScormPackage ⟨11000, 5000, 2000⟩ ["a.txt".toList]) := by
  have h := validateZipSafety_spec ⟨11000, 5000, 2000⟩ (by decide)
  have herr : isErr (validateZipSafety ⟨11000, 5000, 2000⟩) := by
    exact h.1.mpr (Or.inl (by decide))
  exact ⟨herr, h.2 ["a.txt".toList] herr⟩

/- ========================================================================
   C3: repackaging.
   CLI `ScormRebuilder._create_zip` with `_build_modified_files_map`,
   `_write_modified_entry`, `_copy_original_entry`
   (src/traductor.py lines 606-654).  A `zipfile.ZipInfo` is modelled as the
   bundle of attributes `copy.copy` preserves, plus the entry's content.
   ======================================================================== -/

/-- C3 counterexample: a working-copy file matching no original entry is
silently dropped, not appended: with one original entry `a.txt` and working
files `a.txt` and `new.txt`, the output archive has no `new.txt` entry. -/
theorem createZip_cex :
    createZip [⟨⟨"a.txt".toList, 7, 8, 9, 1, [2], []⟩, [0, 1]⟩]
        (buildModifiedMap [("a.txt".toList, [5, 5]), ("new.txt".toList, [6])])
      = [⟨⟨"a.txt".toList, 7, 8, 9, 1, [2], []⟩, [5, 5]⟩] ∧
    "new.txt".toList ∉
      (createZip [⟨⟨"a.txt".toList, 7, 8, 9, 1, [2], []⟩, [0, 1]⟩]
        (buildModifiedMap [("a.txt".toList, [5, 5]), ("new.txt".toList, [6])])).map
        (fun e => e.meta.filename) := by
  constructor
  · rfl
  · decide

/-- C3 (amended): repackaging iterates the original central directory in
order; an entry whose NFC-normalized name is in the modified set gets the
modified bytes with all other attributes copied from the original; every
other entry is copied verbatim; working-copy files matching no original
entry are omitted (the output's entry attribute list equals the
original's), not appended. -/
theorem createZip_spec (orig : List ZipEntry) (modified : List (Str × List Nat)) :
    ((createZip orig modified).map (fun e => e.meta) = orig.map (fun e => e.meta)) ∧
      (∀ i, (createZip orig modified).get? i = (orig.get? i).map (fun e =>
        match modified.find? (fun p => p.1 = nfcStr e.meta.filename) with
        | some p => { e with content := p.2 }
        | none => e)) := by
  constructor
  · unfold createZip
    rw [List.map_map]
    apply List.map_congr_left
    intro e _
    cases hf : modified.find? (fun p => p.1 = nfcStr e.meta.filename) <;> simp [hf]
  · intro i
    unfold createZip
    rw [List.get?_map]  -- deprecated alias is fine here

/- ========================================================================
   C4 / C5 / C9: the Articulate Rise JSON course model.
   Extraction: `ContentExtractor._extract_from_json`, `_is_skippable_key`,
   `_is_translatable_key`, `_process_json_value`, `_is_non_text`
   (src/traductor.py lines 241-242, 345-401, 452-462).
   Apply-back: `ScormRebuilder._apply_to_json` (lines 748-763).
   JSON values are a mutual inductive (numbers restricted to integers, the
   only numerals the model needs); objects are ordered key/value lists as
   Python dicts preserve insertion order.
   ======================================================================== -/

/-- C4 (code bug): a value stored under the key `buttonText` passes every
condition of the claim — the key is in `RISE_FIELDS` up to case, the value
is long enough, its cleaned text is unchanged and non-"non-textual" — yet
the extractor emits no segment, because `_is_translatable_key` compares
`key.lower()` (`"buttontext"`) against a set containing the mixed-case
literal `"buttonText"`, which therefore can never match. -/
theorem riseExtract_buttonText_bug :
    (riseFields.any (fun f => lowerStr f = lowerStr ("buttonText".toList)) = true) ∧
    isNonText (cleanValue id ("Click here to continue".toList)) = false ∧
    3 ≤ (cleanValue id ("Click here to continue".toList)).length ∧
    isTranslatableKey ("buttonText".toList) ("buttonText".toList) = false ∧
    extractJson id
        (.obj (.cons ("buttonText".toList)
          (.str ("Click here to continue".toList)) .nil)) []
      = [] := by
  refine ⟨by decide, by decide, by decide, by decide, ?_⟩
  rfl

/-- C5 counterexample: the id flattening `path.replace('.', '_')` is not
injective, so a translation keyed by an emitted segment id can overwrite a
value stored under the skip-set key `id`.  In the model below the extractor
emits exactly one segment, `rise_labelSet_labels_item_id`, for the key
`item_id`; applying a translation for just that id also rewrites the value
at `labelSet.labels.item.id` — a value stored under `id`. -/
theorem applyJson_skipKey_cex :
    ((extractJson id
        (.obj (.cons ("labelSet".toList) (.obj (.cons ("labels".toList)
          (.obj (.cons ("item_id".toList) (.str ("Hello world".toList))
            (.cons ("item".toList)
              (.obj (.cons ("id".toList) (.str ("Keep me!".toList)) .nil))
              .nil)))
          .nil)) .nil)) []).map RiseSeg.id
      = ["rise_labelSet_labels_item_id".toList]) ∧
    ("id".toList) ∈ skipKeys ∧
    getPath
        (.obj (.cons ("labelSet".toList) (.obj (.cons ("labels".toList)
          (.obj (.cons ("item_id".toList) (.str ("Hello world".toList))
            (.cons ("item".toList)
              (.obj (.cons ("id".toList) (.str ("Keep me!".toList)) .nil))
              .nil)))
          .nil)) .nil))
        [.fld ("labelSet".toList), .fld ("labels".toList),
         .fld ("item".toList), .fld ("id".toList)]
      = some (.str ("Keep me!".toList)) ∧
    getPath
        (applyJson [("rise_labelSet_labels_item_id".toList, "Bonjour".toList)]
          (.obj (.cons ("labelSet".toList) (.obj (.cons ("labels".toList)
            (.obj (.cons ("item_id".toList) (.str ("Hello world".toList))
              (.cons ("item".toList)
                (.obj (.cons ("id".toList) (.str ("Keep me!".toList)) .nil))
                .nil)))
            .nil)) .nil)) [])
        [.fld ("labelSet".toList), .fld ("labels".toList),
         .fld ("item".toList), .fld ("id".toList)]
      = some (.str ("Bonjour".toList)) := by
  refine ⟨?_, by decide, by rfl, ?_⟩
  · rfl
  · rfl

theorem decDigit_range (d : Nat) : '0' ≤ decDigit d ∧ decDigit d ≤ '9' :=
  match d with
  | 0 => by decide
  | 1 => by decide
  | 2 => by decide
  | 3 => by decide
  | 4 => by decide
  | 5 => by decide
  | 6 => by decide
  | 7 => by decide
  | 8 => by decide
  | _ + 9 => show '0' ≤ '9' ∧ ('9' : Char) ≤ '9' by decide

theorem natDigitsAux_range (fuel n : Nat) :
    ∀ c ∈ natDigitsAux fuel n, '0' ≤ c ∧ c ≤ '9' := by
  induction fuel generalizing n with
  | zero => intro c hc; simp [natDigitsAux] at hc
  | succ f ih =>
    intro c hc
    unfold natDigitsAux at hc
    by_cases h : n < 10
    · simp [h] at hc
      subst hc
      exact decDigit_range n
    · simp [h] at hc
      rcases hc with hc | hc
      · exact ih (n / 10) c hc -- placeholder
      · subst hc
        exact decDigit_range (n % 10)

theorem natDigits_range (n : Nat) : ∀ c ∈ natDigits n, '0' ≤ c ∧ c ≤ '9' :=
  natDigitsAux_range (n + 1) n

theorem digit_char_ne {c : Char} (h : '0' ≤ c ∧ c ≤ '9') :
    c ≠ '_' ∧ c ≠ '[' ∧ c ≠ ']' ∧ c ≠ '.' := by
  obtain ⟨h1, h2⟩ := h
  rw [Char.le_def] at h1 h2
  refine ⟨?_, ?_, ?_, ?_⟩ <;> (intro he; subst he; simp at h1 h2)

theorem dotsToUnderscores_append (a b : Str) :
    dotsToUnderscores (a ++ b) = dotsToUnderscores a ++ dotsToUnderscores b := by
  simp [dotsToUnderscores]

theorem dotsToUnderscores_dotfree {s : Str} (h : '.' ∉ s) :
    dotsToUnderscores s = s := by
  induction s with
  | nil => rfl
  | cons c rest ih =>
    simp only [dotsToUnderscores, List.map_cons]
    have hc : c ≠ '.' := fun he => h (he ▸ List.mem_cons_self c rest)
    rw [if_neg hc]
    have := ih (fun hm => h (List.mem_cons_of_mem c hm))
    simp only [dotsToUnderscores] at this
    rw [this]

theorem brkIndex_dotfree (i : Nat) : '.' ∉ brkIndex i := by
  intro h
  simp only [brkIndex, List.mem_cons, List.mem_append, List.mem_singleton] at h
  rcases h with h | h | h
  · exact absurd h.symm (by decide)
  · exact (digit_char_ne (natDigits_range i _ h)).2.2.2 rfl
  · exact absurd h.symm (by decide)

theorem brkIndex_ne_nil (i : Nat) : brkIndex i ≠ [] := by
  simp [brkIndex]

/-- Splitting on a separator class: if two class-free prefixes are followed
by suffixes that are empty or start with a separator, the decomposition is
unique. -/
theorem sepSplit (isSep : Char → Bool) :
    ∀ (a b u v : Str), (∀ c ∈ a, isSep c = false) → (∀ c ∈ b, isSep c = false) →
      (u = [] ∨ ∃ c t, u = c :: t ∧ isSep c = true) →
      (v = [] ∨ ∃ c t, v = c :: t ∧ isSep c = true) →
      a ++ u = b ++ v → a = b ∧ u = v := by
  intro a
  induction a with
  | nil =>
    intro b u v _ hb hu hv heq
    cases b with
    | nil => exact ⟨rfl, heq⟩
    | cons c b' =>
      simp only [List.nil_append, List.cons_append] at heq
      rcases hu with hu | ⟨c', t, hut, hsep⟩
      · subst hu; simp at heq
      · rw [hut] at heq
        cases heq
        have := hb c (by simp)
        rw [this] at hsep
        exact absurd hsep (by simp)
  | cons c a' ih =>
    intro b u v ha hb hu hv heq
    cases b with
    | nil =>
      simp only [List.cons_append, List.nil_append] at heq
      rcases hv with hv | ⟨c', t, hvt, hsep⟩
      · subst hv; simp at heq
      · rw [hvt] at heq
        cases heq
        have := ha c (by simp)
        rw [this] at hsep
        exact absurd hsep (by simp)
    | cons d b' =>
      simp only [List.cons_append, List.cons.injEq] at heq
      obtain ⟨hcd, heq'⟩ := heq
      have := ih b' u v (fun x hx => ha x (by simp [hx]))
        (fun x hx => hb x (by simp [hx])) hu hv heq'
      exact ⟨by rw [hcd, this.1], this.2⟩

theorem cleanComps_tail {c : PathComp} {x : List PathComp}
    (h : CleanComps (c :: x)) : CleanComps x :=
  fun k hk => h k (List.mem_cons_of_mem c hk)

theorem cleanKey_sepFree {k : Str} (h : CleanKey k) :
    ∀ c ∈ k, isSepU c = false := by
  intro c hc
  obtain ⟨_, hu, _, hb⟩ := h
  simp only [isSepU, Bool.or_eq_false_iff, decide_eq_false_iff_not]
  exact ⟨fun he => hu (he ▸ hc), fun he => hb (he ▸ hc)⟩

theorem tailRender_headSep (r : List PathComp) :
    tailRender r = [] ∨ ∃ c t, tailRender r = c :: t ∧ isSepU c = true := by
  cases r with
  | nil => left; rfl
  | cons c rest =>
    cases c with
    | fld k => right; exact ⟨'_', _, rfl, by decide⟩
    | idx i =>
      right
      refine ⟨'[', natDigits i ++ ([']'] ++ tailRender rest), ?_, by decide⟩
      simp [tailRender, brkIndex]

theorem extendPath_flatten (x : List PathComp) :
    ∀ a : Str, a ≠ [] →
      dotsToUnderscores (extendPath a x) = dotsToUnderscores a ++ tailRender x := by
  induction x with
  | nil => intro a _; simp [extendPath, tailRender]
  | cons c rest ih =>
    intro a ha
    cases c with
    | fld k =>
      show dotsToUnderscores (extendPath (appendComp a (.fld k)) rest) = _
      rw [show appendComp a (.fld k) = a ++ ('.' :: k) from by simp [appendComp, ha]]
      rw [ih (a ++ ('.' :: k)) (by simp)]
      rw [dotsToUnderscores_append]
      simp [tailRender, dotsToUnderscores]
    | idx i =>
      show dotsToUnderscores (extendPath (appendComp a (.idx i)) rest) = _
      rw [show appendComp a (.idx i) = a ++ brkIndex i from rfl]
      rw [ih (a ++ brkIndex i) (by simp [brkIndex])]
      rw [dotsToUnderscores_append, dotsToUnderscores_dotfree (brkIndex_dotfree i)]
      simp [tailRender]

theorem renderPath_nf (x : List PathComp) (hc : CleanComps x) :
    dotsToUnderscores (renderPath x) = nfRender x := by
  cases x with
  | nil => rfl
  | cons c rest =>
    cases c with
    | fld k =>
      have hk : CleanKey k := hc k (by simp)
      show dotsToUnderscores (extendPath (appendComp [] (.fld k)) rest) = _
      rw [show appendComp ([] : Str) (.fld k) = k from by simp [appendComp]]
      rw [extendPath_flatten rest k hk.1]
      rfl
    | idx i =>
      show dotsToUnderscores (extendPath (appendComp [] (.idx i)) rest) = _
      rw [show appendComp ([] : Str) (.idx i) = brkIndex i from by simp [appendComp]]
      rw [extendPath_flatten rest (brkIndex i) (brkIndex_ne_nil i)]
      rw [dotsToUnderscores_dotfree (brkIndex_dotfree i)]
      rfl

theorem natDigits_bracketFree (i : Nat) : ∀ c ∈ natDigits i, (c = ']') = False := by
  intro c hc
  simp only [eq_iff_iff, iff_false]
  exact (digit_char_ne (natDigits_range i c hc)).2.2.1

theorem tailRender_fields :
    ∀ r r', CleanComps r → CleanComps r' → tailRender r = tailRender r' →
      fieldsOfPath r = fieldsOfPath r' := by
  intro r
  induction r with
  | nil =>
    intro r' _ _ heq
    cases r' with
    | nil => rfl
    | cons c rest =>
      cases c with
      | fld w => simp [tailRender] at heq
      | idx j => simp [tailRender, brkIndex] at heq
  | cons c r₂ ih =>
    intro r' hcr hcr' heq
    cases c with
    | fld k =>
      cases r' with
      | nil => simp [tailRender] at heq
      | cons c' r'' =>
        cases c' with
        | fld w =>
          simp only [tailRender, List.cons.injEq, true_and] at heq
          have hk : CleanKey k := hcr k (by simp)
          have hw : CleanKey w := hcr' w (by simp)
          rw [dotsToUnderscores_dotfree hk.2.2.1, dotsToUnderscores_dotfree hw.2.2.1] at heq
          have := sepSplit isSepU k w (tailRender r₂) (tailRender r'')
            (cleanKey_sepFree hk) (cleanKey_sepFree hw)
            (tailRender_headSep r₂) (tailRender_headSep r'') heq
          have hf := ih r'' (cleanComps_tail hcr) (cleanComps_tail hcr') this.2
          simp [fieldsOfPath] at hf ⊢
          exact ⟨this.1, hf⟩
        | idx j => simp [tailRender, brkIndex] at heq
    | idx i =>
      cases r' with
      | nil => simp [tailRender, brkIndex] at heq
      | cons c' r'' =>
        cases c' with
        | fld w => simp [tailRender, brkIndex] at heq
        | idx j =>
          simp only [tailRender, brkIndex, List.cons_append, List.append_assoc,
            List.singleton_append, List.cons.injEq, true_and] at heq
          have := sepSplit (fun c => c = ']') (natDigits i) (natDigits j)
            (']' :: tailRender r₂) (']' :: tailRender r'')
            (by intro c hc; simpa using (digit_char_ne (natDigits_range i c hc)).2.2.1)
            (by intro c hc; simpa using (digit_char_ne (natDigits_range j c hc)).2.2.1)
            (Or.inr ⟨']', _, rfl, by simp⟩) (Or.inr ⟨']', _, rfl, by simp⟩) heq
          have htl : tailRender r₂ = tailRender r'' := by
            have := this.2
            simpa using this
          have hf := ih r'' (cleanComps_tail hcr) (cleanComps_tail hcr') htl
          simpa [fieldsOfPath] using hf

theorem nfRender_fields :
    ∀ p q, CleanComps p → CleanComps q → nfRender p = nfRender q →
      fieldsOfPath p = fieldsOfPath q := by
  intro p q hcp hcq heq
  cases p with
  | nil =>
    cases q with
    | nil => rfl
    | cons c rest =>
      cases c with
      | fld w =>
        have hw : CleanKey w := hcq w (by simp)
        simp only [nfRender, dotsToUnderscores_dotfree hw.2.2.1] at heq
        cases hwc : w with
        | nil => exact absurd hwc hw.1
        | cons a b => rw [hwc] at heq; simp at heq
      | idx j => simp [nfRender, brkIndex] at heq
  | cons c r₂ =>
    cases c with
    | fld k =>
      have hk : CleanKey k := hcp k (by simp)
      cases q with
      | nil =>
        simp only [nfRender, dotsToUnderscores_dotfree hk.2.2.1] at heq
        cases hkc : k with
        | nil => exact absurd hkc hk.1
        | cons a b => rw [hkc] at heq; simp at heq
      | cons c' r'' =>
        cases c' with
        | fld w =>
          have hw : CleanKey w := hcq w (by simp)
          simp only [nfRender, dotsToUnderscores_dotfree hk.2.2.1,
            dotsToUnderscores_dotfree hw.2.2.1] at heq
          have := sepSplit isSepU k w (tailRender r₂) (tailRender r'')
            (cleanKey_sepFree hk) (cleanKey_sepFree hw)
            (tailRender_headSep r₂) (tailRender_headSep r'') heq
          have hf := tailRender_fields r₂ r'' (cleanComps_tail hcp) (cleanComps_tail hcq)
            this.2
          simp [fieldsOfPath] at hf ⊢
          exact ⟨this.1, hf⟩
        | idx j =>
          simp only [nfRender, dotsToUnderscores_dotfree hk.2.2.1, brkIndex] at heq
          cases hkc : k with
          | nil => exact absurd hkc hk.1
          | cons a b =>
            rw [hkc] at heq
            simp only [List.cons_append, List.cons.injEq] at heq
            have : '[' ∉ k := hk.2.2.2
            rw [hkc] at this
            exact absurd (heq.1 ▸ List.mem_cons_self a b) this
    | idx i =>
      cases q with
      | nil => simp [nfRender, brkIndex] at heq
      | cons c' r'' =>
        cases c' with
        | fld w =>
          have hw : CleanKey w := hcq w (by simp)
          simp only [nfRender, dotsToUnderscores_dotfree hw.2.2.1, brkIndex] at heq
          cases hwc : w with
          | nil => exact absurd hwc hw.1
          | cons a b =>
            rw [hwc] at heq
            simp only [List.cons_append, List.cons.injEq] at heq
            have : '[' ∉ w := hw.2.2.2
            rw [hwc] at this
            exact absurd (heq.1.symm ▸ List.mem_cons_self a b) this
        | idx j =>
          simp only [nfRender, brkIndex, List.cons_append, List.append_assoc,
            List.singleton_append, List.cons.injEq, true_and] at heq
          have := sepSplit (fun c => c = ']') (natDigits i) (natDigits j)
            (']' :: tailRender r₂) (']' :: tailRender r'')
            (by intro c hc; simpa using (digit_char_ne (natDigits_range i c hc)).2.2.1)
            (by intro c hc; simpa using (digit_char_ne (natDigits_range j c hc)).2.2.1)
            (Or.inr ⟨']', _, rfl, by simp⟩) (Or.inr ⟨']', _, rfl, by simp⟩) heq
          have htl : tailRender r₂ = tailRender r'' := by
            have := this.2
            simpa using this
          have hf := tailRender_fields r₂ r'' (cleanComps_tail hcp) (cleanComps_tail hcq) htl
          simpa [fieldsOfPath] using hf

/-- Two clean paths, one entirely skip-free and one passing through a
skip-set key, can never flatten to the same Rise segment id. -/
theorem riseId_skip_ne (p q : List PathComp) (hcp : CleanComps p) (hcq : CleanComps q)
    (hfree : ∀ w ∈ fieldsOfPath p, w ∉ skipKeys)
    (htouch : ∃ w ∈ fieldsOfPath q, w ∈ skipKeys) :
    riseId p ≠ riseId q := by
  intro h
  unfold riseId at h
  have h2 : dotsToUnderscores (renderPath p) = dotsToUnderscores (renderPath q) := by
    exact List.append_cancel_left h
  rw [renderPath_nf p hcp, renderPath_nf q hcq] at h2
  have hf := nfRender_fields p q hcp hcq h2
  obtain ⟨w, hwq, hws⟩ := htouch
  exact hfree w (hf ▸ hwq) hws

theorem objFind_keys : ∀ {o : JsonObj} {k : Str} {v : Json}, objFind o k = some v →
    k ∈ keysOfObj o ∧ ∀ x ∈ keysOfJson v, x ∈ keysOfObj o := by
  intro o
  match o with
  | .nil => intro k v h; simp [objFind] at h
  | .cons k' v' tl =>
    intro k v h
    unfold objFind at h
    by_cases hk : k' = k
    · rw [if_pos hk] at h
      cases h
      subst hk
      exact ⟨by simp [keysOfObj], fun x hx => by simp [keysOfObj, hx]⟩
    · rw [if_neg hk] at h
      obtain ⟨h1, h2⟩ := objFind_keys h
      exact ⟨by simp [keysOfObj, h1], fun x hx => by simp [keysOfObj, h2 x hx]⟩

theorem listNth_keys : ∀ {a : JsonList} {i : Nat} {v : Json}, listNth a i = some v →
    ∀ x ∈ keysOfJson v, x ∈ keysOfList a := by
  intro a
  match a with
  | .nil => intro i v h; simp [listNth] at h
  | .cons hd tl =>
    intro i v h
    cases i with
    | zero =>
      simp only [listNth] at h
      cases h
      intro x hx
      simp [keysOfList, hx]
    | succ n =>
      simp only [listNth] at h
      intro x hx
      simp [keysOfList, listNth_keys h x hx]

theorem getPath_keys :
    ∀ (q : List PathComp) (M sub : Json), getPath M q = some sub →
      (∀ w ∈ fieldsOfPath q, w ∈ keysOfJson M) ∧
        (∀ x ∈ keysOfJson sub, x ∈ keysOfJson M) := by
  intro q
  induction q with
  | nil =>
    intro M sub h
    simp only [getPath] at h
    cases h
    exact ⟨by simp [fieldsOfPath], fun x hx => hx⟩
  | cons c q' ih =>
    intro M sub h
    cases c with
    | fld k =>
      cases M with
      | obj o =>
        simp only [getPath] at h
        cases hf : objFind o k with
        | none => rw [hf] at h; simp at h
        | some v =>
          rw [hf] at h
          obtain ⟨hk, hkeys⟩ := objFind_keys hf
          obtain ⟨hq, hsub⟩ := ih v sub h
          constructor
          · intro w hw
            simp only [fieldsOfPath, List.filterMap_cons] at hw
            simp only [List.mem_cons] at hw
            rcases hw with hw | hw
            · subst hw; simpa [keysOfJson] using hk
            · simpa [keysOfJson] using hkeys w (hq w hw)
          · intro x hx
            simpa [keysOfJson] using hkeys x (hsub x hx)
      | null => simp [getPath] at h
      | bool b => simp [getPath] at h
      | num n => simp [getPath] at h
      | str s => simp [getPath] at h
      | arr a => simp [getPath] at h
    | idx i =>
      cases M with
      | arr a =>
        simp only [getPath] at h
        cases hf : listNth a i with
        | none => rw [hf] at h; simp at h
        | some v =>
          rw [hf] at h
          have hkeys := listNth_keys hf
          obtain ⟨hq, hsub⟩ := ih v sub h
          constructor
          · intro w hw
            simp only [fieldsOfPath, List.filterMap_cons] at hw
            simpa [keysOfJson] using hkeys w (hq w hw)
          · intro x hx
            simpa [keysOfJson] using hkeys x (hsub x hx)
      | null => simp [getPath] at h
      | bool b => simp [getPath] at h
      | num n => simp [getPath] at h
      | str s => simp [getPath] at h
      | obj o => simp [getPath] at h

mutual
theorem strLeafPaths_fields (j : Json) :
    ∀ r ∈ strLeafPaths j, ∀ w ∈ fieldsOfPath r, w ∈ keysOfJson j := by
  cases j with
  | obj o =>
    intro r hr
    exact fun w hw => strLeafPathsObj_fields o r hr w hw
  | arr a =>
    intro r hr
    exact fun w hw => strLeafPathsList_fields a 0 r hr w hw
  | null => intro r hr; simp [strLeafPaths] at hr
  | bool b => intro r hr; simp [strLeafPaths] at hr
  | num n => intro r hr; simp [strLeafPaths] at hr
  | str s => intro r hr; simp [strLeafPaths] at hr

theorem strLeafPathsObj_fields (o : JsonObj) :
    ∀ r ∈ strLeafPathsObj o, ∀ w ∈ fieldsOfPath r, w ∈ keysOfObj o := by
  cases o with
  | nil => intro r hr; simp [strLeafPathsObj] at hr
  | cons k v tl =>
    intro r hr w hw
    simp only [strLeafPathsObj, List.mem_append] at hr
    rcases hr with hr | hr
    · cases v with
      | str s =>
        simp only [List.mem_singleton] at hr
        subst hr
        simp only [fieldsOfPath, List.filterMap_cons] at hw
        simp only [List.filterMap_nil, List.mem_cons, List.not_mem_nil, or_false] at hw
        subst hw
        simp [keysOfObj]
      | null =>
        simp only [List.mem_map] at hr
        obtain ⟨r', hr', hrr⟩ := hr
        simp [strLeafPaths] at hr'
      | bool b =>
        simp only [List.mem_map] at hr
        obtain ⟨r', hr', hrr⟩ := hr
        simp [strLeafPaths] at hr'
      | num n =>
        simp only [List.mem_map] at hr
        obtain ⟨r', hr', hrr⟩ := hr
        simp [strLeafPaths] at hr'
      | arr a =>
        simp only [List.mem_map] at hr
        obtain ⟨r', hr', hrr⟩ := hr
        subst hrr
        simp only [fieldsOfPath, List.filterMap_cons, List.mem_cons] at hw
        rcases hw with hw | hw
        · subst hw; simp [keysOfObj]
        · have := strLeafPaths_fields (.arr a) r' hr' w hw
          simp [keysOfObj, keysOfJson] at this ⊢
          tauto
      | obj o' =>
        simp only [List.mem_map] at hr
        obtain ⟨r', hr', hrr⟩ := hr
        subst hrr
        simp only [fieldsOfPath, List.filterMap_cons, List.mem_cons] at hw
        rcases hw with hw | hw
        · subst hw; simp [keysOfObj]
        · have := strLeafPaths_fields (.obj o') r' hr' w hw
          simp [keysOfObj, keysOfJson] at this ⊢
          tauto
    · have := strLeafPathsObj_fields tl r hr w hw
      simp [keysOfObj] at this ⊢
      tauto

theorem strLeafPathsList_fields (a : JsonList) :
    ∀ (i : Nat), ∀ r ∈ strLeafPathsList a i, ∀ w ∈ fieldsOfPath r, w ∈ keysOfList a := by
  cases a with
  | nil => intro i r hr; simp [strLeafPathsList] at hr
  | cons hd tl =>
    intro i r hr w hw
    simp only [strLeafPathsList, List.mem_append] at hr
    rcases hr with hr | hr
    · simp only [List.mem_map] at hr
      obtain ⟨r', hr', hrr⟩ := hr
      subst hrr
      simp only [fieldsOfPath, List.filterMap_cons] at hw
      have := strLeafPaths_fields hd r' hr' w hw
      simp [keysOfList, this]
    · have := strLeafPathsList_fields tl (i + 1) r hr w hw
      simp [keysOfList, this]
end

theorem applyObj_cons (tmap : List (Str × Str)) (k : Str) (v : Json) (tl : JsonObj)
    (comps : List PathComp) :
    applyObj tmap (.cons k v tl) comps =
      .cons k (applyEntry tmap comps k v) (applyObj tmap tl comps) := by
  cases v <;> rfl

mutual
theorem applyJson_noop (tmap : List (Str × Str)) (j : Json) :
    ∀ (comps : List PathComp),
      (∀ r ∈ strLeafPaths j, ∀ pr ∈ tmap, pr.1 ≠ riseId (comps ++ r)) →
      applyJson tmap j comps = j := by
  cases j with
  | obj o => intro comps h; exact congrArg Json.obj (applyObj_noop tmap o comps h)
  | arr a => intro comps h; exact congrArg Json.arr (applyList_noop tmap a comps 0 h)
  | null => intro comps h; rfl
  | bool b => intro comps h; rfl
  | num n => intro comps h; rfl
  | str s => intro comps h; rfl

theorem applyObj_noop (tmap : List (Str × Str)) (o : JsonObj) :
    ∀ (comps : List PathComp),
      (∀ r ∈ strLeafPathsObj o, ∀ pr ∈ tmap, pr.1 ≠ riseId (comps ++ r)) →
      applyObj tmap o comps = o := by
  cases o with
  | nil => intro comps h; rfl
  | cons k v tl =>
    intro comps h
    rw [applyObj_cons]
    have htl : applyObj tmap tl comps = tl := by
      apply applyObj_noop tmap tl comps
      intro r hr pr hpr
      exact h r (by simp [strLeafPathsObj, hr]) pr hpr
    rw [htl]
    cases v with
    | str s =>
      have hfind : tmap.find? (fun pr => pr.1 = riseId (comps ++ [.fld k])) = none := by
        rw [List.find?_eq_none]
        intro pr hpr
        simp only [decide_eq_true_eq]
        exact h [.fld k] (by simp [strLeafPathsObj]) pr hpr
      simp [applyEntry, hfind]
    | null => rfl
    | bool b => rfl
    | num n => rfl
    | arr a =>
      have ha : applyJson tmap (.arr a) (comps ++ [.fld k]) = .arr a := by
        apply applyJson_noop tmap (.arr a) (comps ++ [PathComp.fld k])
        intro r hr pr hpr
        rw [List.append_assoc, List.singleton_append]
        exact h (.fld k :: r) (by
          simp only [strLeafPathsObj, List.mem_append]
          exact Or.inl (List.mem_map_of_mem _ hr)) pr hpr
      simp [applyEntry, ha]
    | obj o' =>
      have ha : applyJson tmap (.obj o') (comps ++ [.fld k]) = .obj o' := by
        apply applyJson_noop tmap (.obj o') (comps ++ [PathComp.fld k])
        intro r hr pr hpr
        rw [List.append_assoc, List.singleton_append]
        exact h (.fld k :: r) (by
          simp only [strLeafPathsObj, List.mem_append]
          exact Or.inl (List.mem_map_of_mem _ hr)) pr hpr
      simp [applyEntry, ha]

theorem applyList_noop (tmap : List (Str × Str)) (a : JsonList) :
    ∀ (comps : List PathComp) (i : Nat),
      (∀ r ∈ strLeafPathsList a i, ∀ pr ∈ tmap, pr.1 ≠ riseId (comps ++ r)) →
      applyArr tmap a comps i = a := by
  cases a with
  | nil => intro comps i h; rfl
  | cons hd tl =>
    intro comps i h
    show JsonList.cons (applyJson tmap hd (comps ++ [.idx i])) (applyArr tmap tl comps (i + 1)) = _
    have hhd : applyJson tmap hd (comps ++ [.idx i]) = hd := by
      apply applyJson_noop tmap hd (comps ++ [PathComp.idx i])
      intro r hr pr hpr
      rw [List.append_assoc, List.singleton_append]
      exact h (.idx i :: r) (by
        simp only [strLeafPathsList, List.mem_append]
        exact Or.inl (List.mem_map_of_mem _ hr)) pr hpr
    have htl : applyArr tmap tl comps (i + 1) = tl := by
      apply applyList_noop tmap tl comps (i + 1)
      intro r hr pr hpr
      exact h r (by simp [strLeafPathsList, hr]) pr hpr
    rw [hhd, htl]
end

theorem objFind_applyObj (tmap : List (Str × Str)) :
    ∀ (o : JsonObj) (k : Str) (comps : List PathComp),
      objFind (applyObj tmap o comps) k = (objFind o k).map (applyEntry tmap comps k) := by
  intro o
  match o with
  | .nil => intro k comps; rfl
  | .cons k' v tl =>
    intro k comps
    rw [applyObj_cons]
    show (if k' = k then some (applyEntry tmap comps k' v)
      else objFind (applyObj tmap tl comps) k) = _
    by_cases hk : k' = k
    · subst hk
      simp [objFind]
    · rw [if_neg hk, objFind_applyObj tmap tl k comps]
      simp [objFind, hk]

theorem listNth_applyArr (tmap : List (Str × Str)) :
    ∀ (a : JsonList) (j i : Nat) (comps : List PathComp),
      listNth (applyArr tmap a comps i) j =
        (listNth a j).map (fun v => applyJson tmap v (comps ++ [PathComp.idx (i + j)])) := by
  intro a
  match a with
  | .nil => intro j i comps; rfl
  | .cons hd tl =>
    intro j i comps
    cases j with
    | zero => simp [applyArr, listNth]
    | succ n =>
      show listNth (applyArr tmap tl comps (i + 1)) n = _
      rw [listNth_applyArr tmap tl n (i + 1) comps]
      simp only [listNth]
      have : i + 1 + n = i + (n + 1) := by omega
      rw [this]

theorem lastFld_cons_cons (c c2 : PathComp) (q : List PathComp) :
    lastFld (c :: c2 :: q) = lastFld (c2 :: q) := by
  cases c <;> cases c2 <;> rfl

/-- Where each subvalue of the applied tree comes from: the applied tree's
value at `q` is the original value at `q`, transformed by `applyResult`. -/
theorem applyResult_shift (tmap : List (Str × Str)) (comps : List PathComp)
    (c : PathComp) (q' : List PathComp) (sub : Json)
    (h : q' = [] → (∀ s : Str, sub ≠ .str s) ∨ (∀ k : Str, c ≠ .fld k)) :
    applyResult tmap (comps ++ [c]) q' sub = applyResult tmap comps (c :: q') sub := by
  cases q' with
  | nil =>
    rcases h rfl with hs | hc
    · cases sub with
      | str s => exact absurd rfl (hs s)
      | null => cases c <;> simp [applyResult, lastFld]
      | bool b => cases c <;> simp [applyResult, lastFld]
      | num n => cases c <;> simp [applyResult, lastFld]
      | arr a => cases c <;> simp [applyResult, lastFld]
      | obj o => cases c <;> simp [applyResult, lastFld]
    · cases c with
      | fld k => exact absurd rfl (hc k)
      | idx i => cases sub <;> simp [applyResult, lastFld]
  | cons c2 q'' =>
    unfold applyResult
    rw [lastFld_cons_cons]
    have hassoc : (comps ++ [c]) ++ (c2 :: q'') = comps ++ (c :: c2 :: q'') := by
      rw [List.append_assoc, List.singleton_append]
    cases sub <;> simp [hassoc]

theorem getPath_applyJson (tmap : List (Str × Str)) :
    ∀ (q : List PathComp) (M : Json) (comps : List PathComp),
      getPath (applyJson tmap M comps) q =
        (getPath M q).map (applyResult tmap comps q) := by
  intro q
  induction q with
  | nil =>
    intro M comps
    simp only [getPath, Option.map_some]
    unfold applyResult
    cases M <;> simp [lastFld, applyJson]
  | cons c q' ih =>
    intro M comps
    cases M with
    | null => rfl
    | bool b => rfl
    | num n => rfl
    | str s => rfl
    | obj o =>
      cases c with
      | idx i => rfl
      | fld k =>
        show getPath (.obj (applyObj tmap o comps)) (.fld k :: q') = _
        simp only [getPath]
        rw [objFind_applyObj tmap o k comps]
        cases hv : objFind o k with
        | none => rfl
        | some v =>
          simp only [Option.map_some]
          cases v with
          | str s =>
            cases q' with
            | nil =>
              show getPath (applyEntry tmap comps k (.str s)) [] = _
              simp only [applyEntry, getPath, Option.map_some]
              cases hf : tmap.find? (fun pr => pr.1 = riseId (comps ++ [PathComp.fld k])) <;>
                simp [applyResult, lastFld, hf]
            | cons c'' q'' =>
              show getPath (applyEntry tmap comps k (.str s)) (c'' :: q'') = _
              have hnone : ∀ (x : Json), getPath (.str ([] : Str)) (c'' :: q'') = none := by
                intro x; rfl
              simp only [applyEntry, getPath, applyResult]
              cases hf : tmap.find? (fun pr => pr.1 = riseId (comps ++ [PathComp.fld k])) <;>
                rfl
          | null =>
            show getPath (applyJson tmap .null (comps ++ [PathComp.fld k])) q' = _
            rw [ih]
            cases q' with
            | nil => rfl
            | cons c'' q'' => rfl
          | bool b =>
            show getPath (applyJson tmap (.bool b) (comps ++ [PathComp.fld k])) q' = _
            rw [ih]
            cases q' with
            | nil => rfl
            | cons c'' q'' => rfl
          | num n =>
            show getPath (applyJson tmap (.num n) (comps ++ [PathComp.fld k])) q' = _
            rw [ih]
            cases q' with
            | nil => rfl
            | cons c'' q'' => rfl
          | arr a =>
            show getPath (applyJson tmap (.arr a) (comps ++ [PathComp.fld k])) q' = _
            rw [ih]
            cases hs : getPath (.arr a) q' with
            | none => rfl
            | some sub =>
              rw [Option.map_some', Option.map_some',
                applyResult_shift tmap comps (PathComp.fld k) q' sub ?_]
              intro hq
              subst hq
              simp only [getPath, Option.some.injEq] at hs
              subst hs
              exact Or.inl (fun s h => by cases h)
          | obj o'' =>
            show getPath (applyJson tmap (.obj o'') (comps ++ [PathComp.fld k])) q' = _
            rw [ih]
            cases hs : getPath (.obj o'') q' with
            | none => rfl
            | some sub =>
              rw [Option.map_some', Option.map_some',
                applyResult_shift tmap comps (PathComp.fld k) q' sub ?_]
              intro hq
              subst hq
              simp only [getPath, Option.some.injEq] at hs
              subst hs
              exact Or.inl (fun s h => by cases h)
    | arr a =>
      cases c with
      | fld k => rfl
      | idx i =>
        show getPath (.arr (applyArr tmap a comps 0)) (.idx i :: q') = _
        simp only [getPath]
        rw [listNth_applyArr tmap a i 0 comps]
        cases hv : listNth a i with
        | none => rfl
        | some v =>
          simp only [Option.map_some, Nat.zero_add]
          show getPath (applyJson tmap v (comps ++ [PathComp.idx i])) q' = _
          rw [ih]
          cases hs : getPath v q' with
          | none => rfl
          | some sub =>
            rw [Option.map_some', Option.map_some',
              applyResult_shift tmap comps (PathComp.idx i) q' sub ?_]
            intro hq
            exact Or.inr (fun k h => by cases h)

theorem processJsonValue_id {cleanF : Str → Str} {v k : Str} {comps : List PathComp}
    {seg : RiseSeg} (h : seg ∈ processJsonValue cleanF v k comps) :
    seg.id = riseId comps := by
  by_cases hA : cleanValue cleanF v = [] ∨ (cleanValue cleanF v).length < 3
  · simp [processJsonValue, hA] at h
  · by_cases hB : isTranslatableKey k (renderPath comps)
    · by_cases hC : isNonText (cleanValue cleanF v)
      · simp [processJsonValue, hA, hB, hC] at h
      · simp [processJsonValue, hA, hB, hC] at h
        subst h
        rfl
    · simp [processJsonValue, hA, hB] at h

theorem fieldsOfPath_append (a b : List PathComp) :
    fieldsOfPath (a ++ b) = fieldsOfPath a ++ fieldsOfPath b := by
  simp [fieldsOfPath]

theorem lastFld_append_fld : ∀ (q : List PathComp) (k : Str),
    lastFld (q ++ [.fld k]) = some k := by
  intro q k
  induction q with
  | nil => rfl
  | cons c q' ih =>
    cases hq : q' ++ [PathComp.fld k] with
    | nil => exact absurd hq (by simp)
    | cons y ys =>
      show lastFld (c :: (q' ++ [PathComp.fld k])) = some k
      rw [hq, lastFld_cons_cons, ← hq, ih]

theorem isSkippableKey_false_iff (k : Str) :
    isSkippableKey k = false ↔ k ∉ skipKeys := by
  simp [isSkippableKey, List.contains_iff_exists_mem_beq]

mutual
theorem extractJson_ids (cleanF : Str → Str) (j : Json) :
    ∀ (comps : List PathComp) (seg : RiseSeg), seg ∈ extractJson cleanF j comps →
      ∃ r, seg.id = riseId (comps ++ r) ∧
        ∀ w ∈ fieldsOfPath r, w ∈ keysOfJson j ∧ w ∉ skipKeys := by
  cases j with
  | obj o => exact fun comps seg h => extractObj_ids cleanF o comps 0 seg h
  | arr a => exact fun comps seg h => extractArr_ids cleanF a comps 0 seg h
  | null => intro comps seg h; simp [extractJson] at h
  | bool b => intro comps seg h; simp [extractJson] at h
  | num n => intro comps seg h; simp [extractJson] at h
  | str s => intro comps seg h; simp [extractJson] at h

theorem extractObj_ids (cleanF : Str → Str) (o : JsonObj) :
    ∀ (comps : List PathComp) (unused : Nat) (seg : RiseSeg),
      seg ∈ extractObj cleanF o comps →
      ∃ r, seg.id = riseId (comps ++ r) ∧
        ∀ w ∈ fieldsOfPath r, w ∈ keysOfObj o ∧ w ∉ skipKeys := by
  cases o with
  | nil => intro comps _ seg h; simp [extractObj] at h
  | cons k v tl =>
    intro comps _ seg h
    simp only [extractObj, List.mem_append] at h
    rcases h with h | h
    · by_cases hskip : isSkippableKey k
      · rw [if_pos hskip] at h; simp at h
      · rw [if_neg hskip] at h
        have hknotin : k ∉ skipKeys := by
          rw [← isSkippableKey_false_iff]
          simpa using hskip
        cases v with
        | str s =>
          have h' : seg ∈ (if 3 ≤ s.length then
              processJsonValue cleanF s k (comps ++ [.fld k]) else []) := h
          by_cases hlen : 3 ≤ s.length
          · rw [if_pos hlen] at h'
            refine ⟨[.fld k], processJsonValue_id h', ?_⟩
            intro w hw
            simp only [fieldsOfPath, List.filterMap_cons, List.filterMap_nil,
              List.mem_cons, List.not_mem_nil, or_false] at hw
            subst hw
            exact ⟨by simp [keysOfObj], hknotin⟩
          · rw [if_neg hlen] at h'; simp at h'
        | null =>
          have h' : seg ∈ ([] : List RiseSeg) := h
          simp at h'
        | bool b =>
          have h' : seg ∈ ([] : List RiseSeg) := h
          simp at h'
        | num n =>
          have h' : seg ∈ ([] : List RiseSeg) := h
          simp at h'
        | arr a =>
          obtain ⟨r', hid, hr'⟩ := extractJson_ids cleanF (.arr a) (comps ++ [.fld k]) seg h
          refine ⟨.fld k :: r', ?_, ?_⟩
          · rw [hid, List.append_assoc, List.singleton_append]
          · intro w hw
            simp only [fieldsOfPath, List.filterMap_cons, List.mem_cons] at hw
            rcases hw with hw | hw
            · subst hw; exact ⟨by simp [keysOfObj], hknotin⟩
            · obtain ⟨h1, h2⟩ := hr' w hw
              exact ⟨by simp [keysOfObj, keysOfJson] at h1 ⊢; tauto, h2⟩
        | obj o' =>
          obtain ⟨r', hid, hr'⟩ := extractJson_ids cleanF (.obj o') (comps ++ [.fld k]) seg h
          refine ⟨.fld k :: r', ?_, ?_⟩
          · rw [hid, List.append_assoc, List.singleton_append]
          · intro w hw
            simp only [fieldsOfPath, List.filterMap_cons, List.mem_cons] at hw
            rcases hw with hw | hw
            · subst hw; exact ⟨by simp [keysOfObj], hknotin⟩
            · obtain ⟨h1, h2⟩ := hr' w hw
              exact ⟨by simp [keysOfObj, keysOfJson] at h1 ⊢; tauto, h2⟩
    · obtain ⟨r, hid, hr⟩ := extractObj_ids cleanF tl comps 0 seg h
      refine ⟨r, hid, fun w hw => ?_⟩
      obtain ⟨h1, h2⟩ := hr w hw
      exact ⟨by simp [keysOfObj] at h1 ⊢; tauto, h2⟩

theorem extractArr_ids (cleanF : Str → Str) (a : JsonList) :
    ∀ (comps : List PathComp) (i : Nat) (seg : RiseSeg),
      seg ∈ extractArr cleanF a comps i →
      ∃ r, seg.id = riseId (comps ++ r) ∧
        ∀ w ∈ fieldsOfPath r, w ∈ keysOfList a ∧ w ∉ skipKeys := by
  cases a with
  | nil => intro comps i seg h; simp [extractArr] at h
  | cons hd tl =>
    intro comps i seg h
    simp only [extractArr, List.mem_append] at h
    rcases h with h | h
    · obtain ⟨r', hid, hr'⟩ := extractJson_ids cleanF hd (comps ++ [.idx i]) seg h
      refine ⟨.idx i :: r', ?_, ?_⟩
      · rw [hid, List.append_assoc, List.singleton_append]
      · intro w hw
        simp only [fieldsOfPath, List.filterMap_cons] at hw
        obtain ⟨h1, h2⟩ := hr' w hw
        exact ⟨by simp [keysOfList, h1], h2⟩
    · obtain ⟨r, hid, hr⟩ := extractArr_ids cleanF tl comps (i + 1) seg h
      refine ⟨r, hid, fun w hw => ?_⟩
      obtain ⟨h1, h2⟩ := hr w hw
      exact ⟨by simp [keysOfList, h1], h2⟩
end

theorem fieldsOfPath_mem (w : Str) (x : List PathComp) :
    w ∈ fieldsOfPath x ↔ PathComp.fld w ∈ x := by
  simp only [fieldsOfPath, List.mem_filterMap]
  constructor
  · rintro ⟨c, hc, hcw⟩
    cases c with
    | fld k =>
      simp only [Option.some.injEq] at hcw
      subst hcw
      exact hc
    | idx i => simp at hcw
  · intro h
    exact ⟨.fld w, h, rfl⟩

/-- C5 (amended): for a Rise course model all of whose dict keys are
nonempty and contain none of `'_'`, `'.'`, `'['` — so that the
`'.' → '_'` id flattening is unambiguous — applying any translation map
whose keys are segment ids emitted by the extractor on that same model
leaves every value stored under a skip-set key unchanged, anywhere in the
model.  (Without the key restriction the flattening can collide; see the
counterexample.) -/
theorem applyJson_skipKeys_spec (cleanF : Str → Str) (M : Json)
    (tmap : List (Str × Str))
    (hclean : ∀ k ∈ keysOfJson M, CleanKey k)
    (htr : ∀ pr ∈ tmap, pr.1 ∈ (extractJson cleanF M []).map RiseSeg.id) :
    ∀ (q : List PathComp) (k : Str), k ∈ skipKeys →
      getPath (applyJson tmap M []) (q ++ [.fld k]) = getPath M (q ++ [.fld k]) := by
  intro q k hk
  rw [getPath_applyJson]
  cases hq : getPath M (q ++ [.fld k]) with
  | none => rfl
  | some sub =>
    rw [Option.map_some']
    congr 1
    obtain ⟨hqfields, hsubkeys⟩ := getPath_keys (q ++ [.fld k]) M sub hq
    have hnotin : ∀ (r : List PathComp), (∀ w ∈ fieldsOfPath r, w ∈ keysOfJson sub) →
        ∀ pr ∈ tmap, pr.1 ≠ riseId ((q ++ [.fld k]) ++ r) := by
      intro r hr pr hpr heq
      have hmem := htr pr hpr
      simp only [List.mem_map] at hmem
      obtain ⟨seg, hseg, hsegid⟩ := hmem
      obtain ⟨p, hpid, hpfields⟩ := extractJson_ids cleanF M [] seg hseg
      simp only [List.nil_append] at hpid
      have hne := riseId_skip_ne p ((q ++ [.fld k]) ++ r)
        (fun w hw => hclean w (hpfields w ((fieldsOfPath_mem w p).mpr hw)).1)
        (fun w hw => by
          have hw' : w ∈ fieldsOfPath ((q ++ [PathComp.fld k]) ++ r) :=
            (fieldsOfPath_mem w _).mpr hw
          rw [fieldsOfPath_append] at hw'
          rcases List.mem_append.mp hw' with hw' | hw'
          · exact hclean w (hqfields w hw')
          · exact hclean w (hsubkeys w (hr w hw')))
        (fun w hw => (hpfields w hw).2)
        ⟨k, by
          rw [fieldsOfPath_append]
          refine List.mem_append.mpr (Or.inl ?_)
          rw [fieldsOfPath_append]
          exact List.mem_append.mpr (Or.inr (by simp [fieldsOfPath])), hk⟩
      rw [← hsegid, hpid] at heq
      exact hne heq
    unfold applyResult
    rw [lastFld_append_fld]
    cases sub with
    | str s =>
      have hfind : tmap.find?
          (fun pr => pr.1 = riseId (q ++ [PathComp.fld k])) = none := by
        rw [List.find?_eq_none]
        intro pr hpr
        simp only [decide_eq_true_eq]
        have := hnotin [] (by simp [fieldsOfPath]) pr hpr
        simpa using this
      simp [hfind]
    | null =>
      show applyJson tmap .null ([] ++ (q ++ [.fld k])) = _
      rfl
    | bool b =>
      show applyJson tmap (.bool b) ([] ++ (q ++ [.fld k])) = _
      rfl
    | num n =>
      show applyJson tmap (.num n) ([] ++ (q ++ [.fld k])) = _
      rfl
    | arr a =>
      show applyJson tmap (.arr a) ([] ++ (q ++ [.fld k])) = _
      rw [List.nil_append]
      apply applyJson_noop tmap (.arr a) (q ++ [PathComp.fld k])
      intro r hr pr hpr
      exact hnotin r (fun w hw => strLeafPaths_fields (.arr a) r hr w hw) pr hpr
    | obj o =>
      show applyJson tmap (.obj o) ([] ++ (q ++ [.fld k])) = _
      rw [List.nil_append]
      apply applyJson_noop tmap (.obj o) (q ++ [PathComp.fld k])
      intro r hr pr hpr
      exact hnotin r (fun w hw => strLeafPaths_fields (.obj o) r hr w hw) pr hpr

/-- C5 witness: `applyJson_skipKeys_spec` applied to a concrete model with a
`title` field (emitted) and an `id` field (skip set) and the translation map
for the emitted id: the value under `id` is untouched. -/
theorem applyJson_skipKeys_spec_witness :
    getPath
        (applyJson [("rise_title".toList, "Hola".toList)]
          (.obj (.cons ("title".toList) (.str ("Hello".toList))
            (.cons ("id".toList) (.str ("xyz12".toList)) .nil))) [])
        ([] ++ [.fld ("id".toList)])
      = getPath
          (.obj (.cons ("title".toList) (.str ("Hello".toList))
            (.cons ("id".toList) (.str ("xyz12".toList)) .nil)))
          ([] ++ [.fld ("id".toList)]) := by
  exact applyJson_skipKeys_spec id
    (.obj (.cons ("title".toList) (.str ("Hello".toList))
      (.cons ("id".toList) (.str ("xyz12".toList)) .nil)))
    [("rise_title".toList, "Hola".toList)]
    (by decide) (by decide) [] ("id".toList) (by decide)

/- ========================================================================
   C6: applying translations to the manifest.
   CLI `ScormRebuilder._apply_to_manifest` (src/traductor.py lines 666-688).
   (The backend `_apply_translations_to_xml` re-serializes the whole tree
   with `pretty_print=True` and is not byte-preserving at all; the claim's
   description matches only the CLI path, which is modelled here.)
   ======================================================================== -/

/-- C6 counterexample: the primary replacement inserts the raw translated
text without XML-escaping it.  Translating `Hola` to `A & B` writes
`<title>A & B</title>`, not the claimed `<title>A &amp; B</title>`. -/
theorem applyToManifest_cex :
    applyToManifest [⟨"t1".toList, "Hola".toList⟩]
        [("t1".toList, "A & B".toList)]
        ("<x><title>Hola</title></x>".toList)
      = "<x><title>A & B</title></x>".toList ∧
    ("<x><title>A & B</title></x>".toList : Str)
      ≠ "<x><title>A &amp; B</title></x>".toList := by
  constructor
  · rfl
  · decide

theorem pyReplaceOnceAux_splice (old new : Str) (hold : old ≠ []) :
    ∀ (p s : Str),
      (∀ i < p.length, ¬ old.isPrefixOf ((p ++ old ++ s).drop i)) →
      pyReplaceOnceAux old new (p ++ old ++ s) = p ++ new ++ s := by
  intro p
  induction p with
  | nil =>
    intro s _
    cases hOldS : old ++ s with
    | nil => simp at hOldS; exact absurd hOldS.1 hold
    | cons c rest =>
      show pyReplaceOnceAux old new (old ++ s) = new ++ s
      rw [hOldS]
      unfold pyReplaceOnceAux
      have hpre : old.isPrefixOf (c :: rest) := by
        rw [← hOldS]
        exact List.isPrefixOf_iff_prefix.mpr (List.prefix_append old s)
      rw [if_pos hpre, ← hOldS, List.drop_append_of_le_length (le_refl old.length)]
      simp
  | cons c p' ih =>
    intro s hocc
    show pyReplaceOnceAux old new (c :: (p' ++ old ++ s)) = c :: (p' ++ new ++ s)
    unfold pyReplaceOnceAux
    have h0 := hocc 0 (by simp)
    simp only [List.drop_zero] at h0
    rw [if_neg (by simpa using h0)]
    rw [ih s (fun i hi => by
      have := hocc (i + 1) (by simpa using Nat.succ_lt_succ hi)
      simpa using this)]

/-- C6 (amended): when the original title needs no XML escaping, its first
literal occurrence of `<title>original</title>` — located here by the
no-earlier-occurrence hypothesis — is replaced by `<title>translated</title>`
built from the *raw* translated text (not escaped, contrary to the original
claim), and every byte outside that occurrence is unchanged.  When escaping
does change the original, the code performs a second, separate escaped
replacement. -/
theorem applyToManifest_spec (seg : MSeg) (tr p s : Str)
    (translations : List (Str × Str))
    (hfind : translations.find? (fun pr => pr.1 = seg.id) = some (seg.id, tr))
    (hesc : xmlEscape seg.text = seg.text)
    (hocc : ∀ i < p.length,
      ¬ (wrapTitle seg.text).isPrefixOf ((p ++ wrapTitle seg.text ++ s).drop i)) :
    applyToManifest [seg] translations (p ++ wrapTitle seg.text ++ s)
      = p ++ wrapTitle tr ++ s := by
  unfold applyToManifest
  simp only [List.foldl_cons, List.foldl_nil]
  unfold applySegManifest
  rw [hfind]
  simp only [hesc, ne_eq, not_true_eq_false, if_false]
  unfold pyReplaceOnce
  rw [if_neg (by simp [wrapTitle])]
  exact pyReplaceOnceAux_splice (wrapTitle seg.text) (wrapTitle tr)
    (by simp [wrapTitle]) p s hocc

/-- C6 witness: `applyToManifest_spec` at a concrete manifest. -/
theorem applyToManifest_spec_witness :
    applyToManifest [⟨"t1".toList, "Hola".toList⟩]
        [("t1".toList, "Adeu".toList)]
        ("<a>".toList ++ wrapTitle ("Hola".toList) ++ "</a>".toList)
      = "<a>".toList ++ wrapTitle ("Adeu".toList) ++ "</a>".toList := by
  exact applyToManifest_spec ⟨"t1".toList, "Hola".toList⟩ ("Adeu".toList)
    ("<a>".toList) ("</a>".toList) [("t1".toList, "Adeu".toList)]
    (by rfl) (by decide) (by decide)

/- ========================================================================
   C7: per-segment translation.
   CLI `Translator.translate` / `_translate_segment_safe` /
   `_translate_segment` (src/traductor.py lines 482-533).  The external
   translator calls (`GoogleTranslator.translate` for plain text and the
   node-by-node HTML path) are parameters `f` and `g`; a raised exception is
   an `Except.error`.
   ======================================================================== -/

/-- C7 counterexample: a one-character non-HTML segment gets no entry at
all — `_translate_segment` returns `None` and `_translate_segment_safe`
stores nothing — so the provider returns zero translations for one input
segment, not "exactly one translation per input segment". -/
theorem translateCLI_cex :
    translateCLI (fun s => .ok s) (fun s => .ok s) [⟨"s1".toList, "x".toList, false⟩]
      = [] ∧
    ([] : List (Str × Str)).length
      ≠ ([⟨"s1".toList, "x".toList, false⟩] : List TSeg).length := by
  exact ⟨rfl, by decide⟩

theorem dictInsert_fresh {m : List (Str × Str)} {k : Str} (v : Str)
    (h : k ∉ m.map Prod.fst) : dictInsert m k v = m ++ [(k, v)] := by
  unfold dictInsert
  rw [if_neg]
  simp only [List.any_eq_true, decide_eq_true_eq, not_exists]
  intro pr hpr
  exact h (hpr.2 ▸ List.mem_map_of_mem Prod.fst hpr.1)

theorem translateCLI_foldl (f g : Str → Except Unit Str) :
    ∀ (segs : List TSeg) (acc : List (Str × Str)),
      (∀ seg ∈ segs, (expectedEntry f g seg).isSome) →
      (segs.map TSeg.id).Nodup →
      (∀ seg ∈ segs, seg.id ∉ acc.map Prod.fst) →
      segs.foldl (translateSegmentSafe f g) acc =
        acc ++ segs.map (fun s => (s.id, (expectedEntry f g s).getD [])) := by
  intro segs
  induction segs with
  | nil => intro acc _ _ _; simp
  | cons seg rest ih =>
    intro acc hsome hnd hdisj
    rw [List.map_cons] at hnd
    have hnd2 := List.nodup_cons.mp hnd
    simp only [List.foldl_cons]
    have hstep : translateSegmentSafe f g acc seg
        = acc ++ [(seg.id, (expectedEntry f g seg).getD [])] := by
      have hs := hsome seg (by simp)
      unfold translateSegmentSafe expectedEntry at *
      cases ht : translateSegment f g seg with
      | error e => rw [dictInsert_fresh seg.text (hdisj seg (by simp))]; rfl
      | ok o =>
        cases o with
        | none => rw [ht] at hs; simp at hs
        | some r =>
          by_cases hr : r = []
          · rw [ht] at hs; simp [hr] at hs
          · simp only [ne_eq, hr, not_false_eq_true, if_true,
              dictInsert_fresh r (hdisj seg (by simp))]
            simp [hr]
    rw [hstep]
    rw [ih (acc ++ [(seg.id, (expectedEntry f g seg).getD [])])
      (fun s hsm => hsome s (by simp [hsm])) hnd2.2 ?_]
    · simp
    · intro s hsm
      simp only [List.map_append, List.mem_append, not_or]
      refine ⟨hdisj s (by simp [hsm]), ?_⟩
      have hne : s.id ≠ seg.id := by
        intro he
        exact hnd2.1 (he ▸ List.mem_map_of_mem TSeg.id hsm)
      simp [hne]

theorem find?_mapped_entries (f g : Str → Except Unit Str) :
    ∀ (segs : List TSeg) (seg : TSeg), seg ∈ segs →
      (segs.map TSeg.id).Nodup →
      (segs.map (fun s => (s.id, (expectedEntry f g s).getD []))).find?
          (fun pr => pr.1 = seg.id)
        = some (seg.id, (expectedEntry f g seg).getD []) := by
  intro segs
  induction segs with
  | nil => intro seg h; simp at h
  | cons s rest ih =>
    intro seg hmem hnd
    rw [List.map_cons] at hnd
    have hnd2 := List.nodup_cons.mp hnd
    simp only [List.map_cons, List.find?_cons]
    by_cases he : s.id = seg.id
    · have hd : decide (s.id = seg.id) = true := by simp [he]
      rw [hd]
      have hms : seg = s ∨ seg ∈ rest := by simpa using hmem
      rcases hms with h | h
      · subst h; rfl
      · exact absurd (he ▸ List.mem_map_of_mem TSeg.id h) hnd2.1
    · have hd : decide (s.id = seg.id) = false := by simp [he]
      rw [hd]
      have hms : seg = s ∨ seg ∈ rest := by simpa using hmem
      rcases hms with h | h
      · exact absurd (by rw [h]) he
      · exact ih seg h hnd2.2

/-- C7 (amended): for input segments with pairwise distinct ids, each of
which yields a stored entry (HTML segments and plain segments of length ≥ 2
whose translation is nonempty — the emitted segment kinds), the provider
returns exactly one entry per segment; for a segment on which the external
translator raises, the entry is the original text, and a single-segment
failure never aborts: the fold is total and the remaining segments are
still translated.  Plain segments shorter than 2 characters or empty
translation results are silently dropped (contrary to the original claim;
see the counterexample). -/
theorem translateCLI_spec (f g : Str → Except Unit Str) (segs : List TSeg)
    (hsome : ∀ seg ∈ segs, (expectedEntry f g seg).isSome)
    (hnd : (segs.map TSeg.id).Nodup) :
    (translateCLI f g segs).length = segs.length ∧
      ∀ seg ∈ segs,
        (translateCLI f g segs).find? (fun pr => pr.1 = seg.id)
          = some (seg.id, (expectedEntry f g seg).getD []) := by
  have hfold := translateCLI_foldl f g segs [] hsome hnd (by simp)
  unfold translateCLI
  rw [hfold]
  simp only [List.nil_append]
  constructor
  · simp
  · intro seg hmem
    exact find?_mapped_entries f g segs seg hmem hnd

/-- C7 witness: `translateCLI_spec` with one failing and one succeeding
segment — two entries, the failing one keeping its original text. -/
theorem translateCLI_spec_witness :
    (translateCLI (fun s => if s = "hola".toList then .error () else .ok ('t' :: s))
        (fun s => .ok s)
        [⟨"a".toList, "hola".toList, false⟩, ⟨"b".toList, "adeu".toList, false⟩]).length
      = 2 ∧
      (translateCLI (fun s => if s = "hola".toList then .error () else .ok ('t' :: s))
          (fun s => .ok s)
          [⟨"a".toList, "hola".toList, false⟩, ⟨"b".toList, "adeu".toList, false⟩]).find?
          (fun pr => pr.1 = "a".toList)
        = some ("a".toList, "hola".toList) := by
  have h := translateCLI_spec
    (fun s => if s = "hola".toList then .error () else .ok ('t' :: s))
    (fun s => .ok s)
    [⟨"a".toList, "hola".toList, false⟩, ⟨"b".toList, "adeu".toList, false⟩]
    (by decide) (by decide)
  exact ⟨h.1, h.2 ⟨"a".toList, "hola".toList, false⟩ (by simp)⟩

/- ========================================================================
   C8: generic HTML text extraction.
   Backend: `ContentExtractor.extract_from_html_file` and `_get_direct_text`
   (src/backend/app/services/content_extractor.py lines 239-323).
   CLI: `ContentExtractor._extract_element_and_attrs` using
   `elem.get_text(strip=True)` (src/traductor.py lines 426-432).
   A parsed HTML document is a tree of elements and text nodes; BeautifulSoup
   `find_all` returns elements in document (pre-order) sequence.
   ======================================================================== -/

theorem foldl_append_eq_flatMap {α β : Type} (f : α → List β) :
    ∀ (l : List α) (acc : List β),
      l.foldl (fun a x => a ++ f x) acc = acc ++ l.flatMap f := by
  intro l
  induction l with
  | nil => intro acc; simp
  | cons x xs ih => intro acc; simp [ih]

theorem flatMap_option_eq_filterMap {α β : Type} (c : α → Prop) [DecidablePred c]
    (h : α → β) :
    ∀ (l : List α),
      l.flatMap (fun e => if c e then [h e] else [])
        = l.filterMap (fun e => if c e then some (h e) else none) := by
  intro l
  induction l with
  | nil => rfl
  | cons x xs ih =>
    by_cases hc : c x <;> simp [hc, ih]

mutual
theorem findAllNode_eq_filter (tag : Str) (n : HNode) :
    findAllNode tag n = (allElemsNode n).filter (hasTag tag) := by
  cases n with
  | text s => rfl
  | elem t ch =>
    show (if t = tag then [HNode.elem t ch] else []) ++ findAllList tag ch = _
    rw [findAllList_eq_filter tag ch]
    by_cases ht : t = tag <;>
      simp [allElemsNode, List.filter_cons, hasTag, ht]

theorem findAllList_eq_filter (tag : Str) (l : HList) :
    findAllList tag l = (allElemsList l).filter (hasTag tag) := by
  cases l with
  | nil => rfl
  | cons hd tl =>
    show findAllNode tag hd ++ findAllList tag tl = _
    rw [findAllNode_eq_filter tag hd, findAllList_eq_filter tag tl]
    simp [allElemsList]
end

/-- C8 (amended, the backend extractor): pruning first, the emitted text
segments are exactly one per translatable-tag element whose direct text —
the stripped immediate text children joined by single spaces, excluding all
child-element text — is nonempty with stripped length ≥ 3, carrying that
direct text; every emitted element is an element of the pruned document
with the segment's tag.  (The CLI extractor instead emits the full
descendant text; see the counterexample.) -/
theorem backendExtractHtml_spec (tags : List Str) (root : HNode) :
    (backendExtractHtml tags root
      = tags.flatMap (fun t => (findAllNode t (pruneNode root)).filterMap (fun e =>
          if directText e ≠ [] ∧ 3 ≤ (pyStrip (directText e)).length
          then some (t, pyStrip (directText e)) else none))) ∧
    (∀ pr ∈ backendExtractHtml tags root,
      ∃ e ∈ allElemsNode (pruneNode root),
        hasTag pr.1 e ∧ pr.2 = pyStrip (directText e) ∧ 3 ≤ pr.2.length) := by
  have heq : backendExtractHtml tags root
      = tags.flatMap (fun t => (findAllNode t (pruneNode root)).filterMap (fun e =>
          if directText e ≠ [] ∧ 3 ≤ (pyStrip (directText e)).length
          then some (t, pyStrip (directText e)) else none)) := by
    unfold backendExtractHtml
    rw [foldl_append_eq_flatMap
      (fun t => (findAllNode t (pruneNode root)).foldl (fun acc2 e =>
        acc2 ++
          (let txt := directText e
           if txt ≠ [] ∧ 3 ≤ (pyStrip txt).length then [(t, pyStrip txt)] else [])) [])
      tags []]
    simp only [List.nil_append]
    congr 1
    funext t
    rw [foldl_append_eq_flatMap
      (fun e => (let txt := directText e
        if txt ≠ [] ∧ 3 ≤ (pyStrip txt).length then [(t, pyStrip txt)] else []))
      (findAllNode t (pruneNode root)) []]
    simp only [List.nil_append]
    exact flatMap_option_eq_filterMap
      (fun e => directText e ≠ [] ∧ 3 ≤ (pyStrip (directText e)).length)
      (fun e => (t, pyStrip (directText e))) (findAllNode t (pruneNode root))
  refine ⟨heq, ?_⟩
  intro pr hpr
  rw [heq] at hpr
  simp only [List.mem_flatMap, List.mem_filterMap] at hpr
  obtain ⟨t, _, e, he, hcond⟩ := hpr
  rw [findAllNode_eq_filter] at he
  have hmem := List.mem_filter.mp he
  split_ifs at hcond with hc
  · simp only [Option.some.injEq] at hcond
    refine ⟨e, hmem.1, ?_, ?_, ?_⟩
    · rw [← hcond]; exact hmem.2
    · rw [← hcond]
    · rw [← hcond]; exact hc.2

/-- C8 counterexample: for the document
`<div>Hi there<span> child text</span></div>` the CLI extractor emits a
`div` segment whose text `Hi therechild text` is the element's full
descendant text; no element of the document has that as its direct text,
so the claim's "only the element's direct text" fails for the CLI
extractor. -/
theorem cliExtractHtml_cex :
    cliExtractHtml ["div".toList, "span".toList]
        (.elem ("div".toList) (.cons (.text ("Hi there".toList))
          (.cons (.elem ("span".toList) (.cons (.text (" child text".toList)) .nil))
            .nil)))
      = [("div".toList, "Hi therechild text".toList),
         ("span".toList, "child text".toList)] ∧
    ∀ e ∈ allElemsNode
        (.elem ("div".toList) (.cons (.text ("Hi there".toList))
          (.cons (.elem ("span".toList) (.cons (.text (" child text".toList)) .nil))
            .nil))),
      pyStrip (directText e) ≠ "Hi therechild text".toList := by
  constructor
  · rfl
  · decide

/- ========================================================================
   C9: Rise decode / re-encode splice.
   `ScormRebuilder._apply_to_rise`, `_decode_rise_content`,
   `_encode_rise_content` (src/traductor.py lines 702-746).  Executable
   models of the library calls: UTF-8 codec, base64 codec,
   `json.dumps(·, ensure_ascii=False)` with the default separators, and
   `json.loads` restricted to integer numerals (floats do not occur in the
   claims' inputs).
   ======================================================================== -/

theorem matchDeser_split {s g r : Str} (h : matchDeser s = some (g, r)) :
    s = "deserialize(\"".toList ++ g ++ r := by
  unfold matchDeser at h
  by_cases h1 : ("deserialize(\"".toList).isPrefixOf s
  · rw [if_pos h1] at h
    by_cases h2 : (s.drop 13).takeWhile isB64Char ≠ [] ∧
        ("\")".toList).isPrefixOf ((s.drop 13).dropWhile isB64Char)
    · rw [if_pos h2] at h
      simp only [Option.some.injEq, Prod.mk.injEq] at h
      obtain ⟨hg, hr⟩ := h
      obtain ⟨t, ht⟩ := List.isPrefixOf_iff_prefix.mp h1
      rw [← ht]
      have hdrop : s.drop ("deserialize(\"".toList).length = t := by
        rw [← ht, List.drop_left]
      have hlen : s.drop 13 = t := by
        simpa using hdrop
      rw [← hg, ← hr, hlen]
      rw [List.append_assoc, List.takeWhile_append_dropWhile]
    · rw [if_neg h2] at h
      exact absurd h (by simp)
  · rw [if_neg h1] at h
    exact absurd h (by simp)

theorem riseSearchAux_split :
    ∀ (s acc pre g post : Str), riseSearchAux acc s = some (pre, g, post) →
      acc.reverse ++ s = pre ++ g ++ post := by
  intro s
  induction s with
  | nil => intro acc pre g post h; simp [riseSearchAux] at h
  | cons c rest ih =>
    intro acc pre g post h
    unfold riseSearchAux at h
    cases hm : matchDeser (c :: rest) with
    | some pr =>
      rw [hm] at h
      simp only [Option.some.injEq, Prod.mk.injEq] at h
      obtain ⟨hpre, hg, hpost⟩ := h
      rw [← hpre, ← hg, ← hpost]
      rw [matchDeser_split hm]
      simp
    | none =>
      rw [hm] at h
      have := ih (c :: acc) pre g post h
      simpa using this

/-- An empty translation map leaves the model untouched. -/
theorem applyJson_empty (j : Json) (comps : List PathComp) :
    applyJson [] j comps = j := by
  apply applyJson_noop [] j comps
  intro r _ pr hpr
  simp at hpr

/-- C9 (amended): the bytes outside the captured base64 group are always
preserved exactly — the result is either the unchanged file or a splice
between the group's boundaries; and the unchanged-JSON re-encode is
byte-identical exactly on files whose captured group is already canonical,
i.e. equals the base64 of the Python-style serialization of the decoded
model.  (For a non-canonically formatted group the splice differs; see the
counterexample.) -/
theorem applyToRise_spec (tmap : List (Str × Str)) (content pre g post : Str)
    (hsearch : riseSearch content = some (pre, g, post)) :
    content = pre ++ g ++ post ∧
      (applyToRise tmap content = content ∨
        ∃ x, applyToRise tmap content = pre ++ x ++ post) ∧
      (∀ bs dec d, b64decode g = some bs → utf8Decode bs = some dec →
        jsonLoads dec = some d → b64encode (utf8Encode (jsonDumps d)) = g →
        applyToRise [] content = content) := by
  have hsplit : content = pre ++ g ++ post := by
    have := riseSearchAux_split content [] pre g post hsearch
    simpa using this
  have hred : applyToRise tmap content = applyToRiseBody tmap content pre g post := by
    unfold applyToRise
    rw [hsearch]
  have hred0 : applyToRise [] content = applyToRiseBody [] content pre g post := by
    unfold applyToRise
    rw [hsearch]
  refine ⟨hsplit, ?_, ?_⟩
  · rw [hred]
    unfold applyToRiseBody
    cases hb : b64decode g with
    | none => exact Or.inl rfl
    | some bs =>
      show applyToRiseUtf8 tmap content pre post bs = content ∨
        ∃ x, applyToRiseUtf8 tmap content pre post bs = pre ++ x ++ post
      unfold applyToRiseUtf8
      cases hu : utf8Decode bs with
      | none => exact Or.inl rfl
      | some dec =>
        show applyToRiseLoads tmap content pre post dec = content ∨
          ∃ x, applyToRiseLoads tmap content pre post dec = pre ++ x ++ post
        unfold applyToRiseLoads
        cases hl : jsonLoads dec with
        | none => exact Or.inl rfl
        | some data =>
          show applyToRiseEncode tmap content pre post data = content ∨
            ∃ x, applyToRiseEncode tmap content pre post data = pre ++ x ++ post
          unfold applyToRiseEncode
          by_cases hz : b64encode (utf8Encode (jsonDumps (applyJson tmap data []))) = []
          · refine Or.inl ?_
            show (if b64encode (utf8Encode (jsonDumps (applyJson tmap data []))) = []
              then content else pre ++ b64encode (utf8Encode (jsonDumps (applyJson tmap data []))) ++ post) = content
            rw [if_pos hz]
          · refine Or.inr ⟨b64encode (utf8Encode (jsonDumps (applyJson tmap data []))), ?_⟩
            show (if b64encode (utf8Encode (jsonDumps (applyJson tmap data []))) = []
              then content else pre ++ b64encode (utf8Encode (jsonDumps (applyJson tmap data []))) ++ post) = _
            rw [if_neg hz]
  · intro bs dec d h1 h2 h3 h4
    rw [hred0]
    unfold applyToRiseBody
    rw [h1]
    show applyToRiseUtf8 [] content pre post bs = content
    unfold applyToRiseUtf8
    rw [h2]
    show applyToRiseLoads [] content pre post dec = content
    unfold applyToRiseLoads
    rw [h3]
    show applyToRiseEncode [] content pre post d = content
    unfold applyToRiseEncode
    rw [applyJson_empty d [], h4]
    by_cases hz : g = []
    · simp [hz]
    · simp only [hz, if_false]
      exact hsplit.symm

/-- C9 witness: `applyToRise_spec` at a canonical file — the group `e30=`
is the base64 of the serialized empty-object model, and the identity
re-encode leaves the whole file byte-identical. -/
theorem applyToRise_spec_witness :
    applyToRise [] ("ab deserialize(\"e30=\") cd".toList)
      = "ab deserialize(\"e30=\") cd".toList := by
  exact (applyToRise_spec [] ("ab deserialize(\"e30=\") cd".toList)
      ("ab deserialize(\"".toList) ("e30=".toList) ("\") cd".toList)
      (by rfl)).2.2
    [123, 125] [Char.ofNat 123, Char.ofNat 125] (.obj .nil)
    (by rfl) (by rfl) (by rfl) (by rfl)

/-- C9 counterexample: the claim's universal byte-identity fails for a Rise
file whose embedded JSON is not in Python's `json.dumps` form: the group
`eyB9` decodes to the JSON text `"{ }"` (with an inner space), and the
identity re-encode splices back `e30=` — the file is not byte-identical. -/
theorem applyToRise_cex :
    applyToRise [] ("ab deserialize(\"eyB9\") cd".toList)
        = "ab deserialize(\"e30=\") cd".toList ∧
      ("ab deserialize(\"e30=\") cd".toList : Str)
        ≠ "ab deserialize(\"eyB9\") cd".toList := by
  exact ⟨by rfl, by decide⟩

/-- C8 witness: `backendExtractHtml_spec` applied to a concrete document —
the emitted `div` segment comes from an element whose stripped direct text
it carries. -/
theorem backendExtractHtml_spec_witness :
    ∃ e ∈ allElemsNode (pruneNode
        (.elem ("div".toList) (.cons (.text ("Hello world".toList)) .nil))),
      hasTag ("div".toList, "Hello world".toList).1 e ∧
        ("div".toList, "Hello world".toList).2 = pyStrip (directText e) ∧
        3 ≤ ("div".toList, "Hello world".toList).2.length := by
  exact (backendExtractHtml_spec ["div".toList, "span".toList]
      (.elem ("div".toList) (.cons (.text ("Hello world".toList)) .nil))).2
    ("div".toList, "Hello world".toList) (by decide)
